import Mathlib

/-!
Shallow embedding of `src/bfs_algorithm.py` and verification of its
specification claims.

The Python module represents a graph as a dict from vertex labels to ordered
adjacency lists.  We embed it as an association list `List (V × List V)` over
an arbitrary vertex type with decidable equality (Python dicts preserve
insertion order, which an association list models faithfully).

The three `while queue:` loops of the source are embedded as structurally
recursive functions over an explicit fuel parameter; `none` signals fuel
exhaustion.  The wrappers run the loops with fuel `stdFuel G`, and the
theorem `bfsAux_total` (and friends) proves this fuel is always sufficient,
so the fuel-exhaustion branch is dead code.
-/

namespace BfsSpec

variable {V : Type} [DecidableEq V]

/-- A graph: ordered mapping from vertex to adjacency list (Python dict). -/
abbrev Graph (V : Type) := List (V × List V)

/-- The keys of the graph dict. -/
def keys (G : Graph V) : List V := G.map Prod.fst

/-- `graph.get(v)`: first binding of `v`, if any (Python dict lookup). -/
def lookupList : Graph V → V → Option (List V)
  | [], _ => none
  | (k, l) :: rest, v => if v = k then some l else lookupList rest v

/-- `graph.get(v, [])`: adjacency list of `v`, empty when `v` is not a key. -/
def adj (G : Graph V) (v : V) : List V := (lookupList G v).getD []

/-- All vertices mentioned in some adjacency list. -/
def adjTargets (G : Graph V) : List V := (G.map Prod.snd).flatten

/-- Every vertex that can ever be visited: keys plus adjacency targets. -/
def univList (G : Graph V) : List V := keys G ++ adjTargets G

/-- Fuel bound: strictly more than the number of possible dequeue operations. -/
def stdFuel (G : Graph V) : Nat := (univList G).length + 2

/-- The fresh vertices appended by the inner
`for neighbor ...: if neighbor not in visited` loop, in adjacency order. -/
def newNeighbors (vis : List V) : List V → List V
  | [] => []
  | n :: ns => if n ∈ vis then newNeighbors vis ns else n :: newNeighbors (vis ++ [n]) ns

/-- The `while queue:` loop shared by `breadth_first_search` and the inner
loop of `bfs_connected_components`: dequeues the head, appends it to the
accumulator, enqueues and marks its unvisited neighbors.  Returns the
visitation order together with the final visited list. -/
def bfsAux (G : Graph V) : Nat → List V → List V → List V → Option (List V × List V)
  | _, [], vis, acc => some (acc.reverse, vis)
  | 0, _ :: _, _, _ => none
  | fuel + 1, v :: q, vis, acc =>
      bfsAux G fuel (q ++ newNeighbors vis (adj G v)) (vis ++ newNeighbors vis (adj G v)) (v :: acc)

/-- BFS visitation order from `v` (the loop body of `breadth_first_search`). -/
def bfsOrder (G : Graph V) (v : V) : List V :=
  ((bfsAux G (stdFuel G) [v] [v] []).map Prod.fst).getD []

/-- The one error kind of the module (`ValueError` for a missing start node). -/
inductive BfsError : Type
  | vertexNotFound : BfsError
deriving DecidableEq

/-- `breadth_first_search(graph, start_node)`. -/
def breadth_first_search (G : Graph V) (start_node : V) : Except BfsError (List V) :=
  if start_node ∈ keys G then Except.ok (bfsOrder G start_node)
  else Except.error BfsError.vertexNotFound

/-- The neighbor scan of `bfs_shortest_path`: for each neighbor in order,
return `path + [neighbor]` as soon as a neighbor equals the target
(`Except.error` is the early return), otherwise enqueue fresh neighbors with
their extended paths.  Arguments: target, path of the dequeued vertex,
remaining neighbors, visited, rest of the queue. -/
def spScan (t : V) (p : List V) :
    List V → List V → List (V × List V) → Except (List V) (List V × List (V × List V))
  | [], vis, q => Except.ok (vis, q)
  | n :: ns, vis, q =>
      if n = t then Except.error (p ++ [n])
      else if n ∈ vis then spScan t p ns vis q
      else spScan t p ns (vis ++ [n]) (q ++ [(n, p ++ [n])])

/-- The `while queue:` loop of `bfs_shortest_path`.  `some (some r)` is an
early return with path `r`, `some none` is exhaustion (no path), `none` is
fuel exhaustion. -/
def spAux (G : Graph V) (t : V) : Nat → List (V × List V) → List V → Option (Option (List V))
  | _, [], _ => some none
  | 0, _ :: _, _ => none
  | fuel + 1, (v, p) :: q, vis =>
      match spScan t p (adj G v) vis q with
      | Except.error found => some (some found)
      | Except.ok (vis', q') => spAux G t fuel q' vis'

/-- `bfs_shortest_path(graph, start, target)`. -/
def bfs_shortest_path (G : Graph V) (start target : V) : Option (List V) :=
  if start ∈ keys G ∧ target ∈ keys G then
    if start = target then some [start]
    else (spAux G target (stdFuel G) [(start, [start])] [start]).getD none
  else none

/-- The `for vertex in graph:` loop of `bfs_connected_components`: scan keys
in order, start a fresh BFS (shared visited list) at each unvisited key. -/
def componentsAux (G : Graph V) : List V → List V → Option (List (List V))
  | [], _ => some []
  | k :: ks, vis =>
      if k ∈ vis then componentsAux G ks vis
      else
        match bfsAux G (stdFuel G) [k] (vis ++ [k]) [] with
        | none => none
        | some (comp, vis') => (componentsAux G ks vis').map (comp :: ·)

/-- `bfs_connected_components(graph)`. -/
def bfs_connected_components (G : Graph V) : List (List V) :=
  (componentsAux G (keys G) []).getD []

/-! ### Specification-side notions: reachability, depth, paths -/

/-- Vertices reachable from `s` within `n` edge steps (with multiplicity;
only membership matters). -/
def reachList (G : Graph V) (s : V) : Nat → List V
  | 0 => [s]
  | n + 1 => reachList G s n ++ ((reachList G s n).map (adj G)).flatten

/-- One edge of the graph: `b` occurs in the adjacency list of `a`. -/
def Edge (G : Graph V) (a b : V) : Prop := b ∈ adj G a

/-- `v` is reachable from `s` following adjacency lists. -/
def Reachable (G : Graph V) (s v : V) : Prop := Relation.ReflTransGen (Edge G) s v

/-- BFS depth of `a` is at most the BFS depth of `b`: every step bound that
reaches `b` also reaches `a`. -/
def DepthLE (G : Graph V) (s : V) (a b : V) : Prop :=
  ∀ n, b ∈ reachList G s n → a ∈ reachList G s n

/-- `p` is a walk in `G` from `s` to `t`: nonempty, endpoints as given,
every consecutive pair an edge. -/
def IsPath (G : Graph V) (s t : V) (p : List V) : Prop :=
  p ≠ [] ∧ p.head? = some s ∧ p.getLast? = some t ∧ List.Chain' (Edge G) p

/-! ### Level-synchronous view of the BFS loop (used to prove the order
guarantees of `breadth_first_search`). -/

/-- Fresh vertices discovered while expanding one whole BFS level, scanning
the level's vertices in order and each adjacency list in order. -/
def collectNew (G : Graph V) : List V → List V → List V
  | _, [] => []
  | vis, v :: l =>
      newNeighbors vis (adj G v) ++
        collectNew G (vis ++ newNeighbors vis (adj G v)) l

/-- Level-by-level BFS: emit the current level, then recurse on the newly
discovered one.  `bfsAux` produces the same visitation order. -/
def levelRun (G : Graph V) : Nat → List V → List V → List V
  | _, [], _ => []
  | 0, _ :: _, _ => []
  | fuel + 1, v :: l, vis =>
      (v :: l) ++ levelRun G fuel (collectNew G vis (v :: l)) (vis ++ collectNew G vis (v :: l))

/-! ### Spec-side comparator for the component ordering claim -/

/-- Modelled from the spec: components appear in the order their root is
first encountered scanning the keys; within a component, vertices appear in
BFS visitation order from that root, restricted to vertices not already in
an earlier component. -/
def csAux (G : Graph V) : List V → List V → List (List V)
  | [], _ => []
  | k :: ks, seen =>
      if k ∈ seen then csAux G ks seen
      else
        (bfsOrder G k).filter (fun x => !decide (x ∈ seen)) ::
          csAux G ks (seen ++ (bfsOrder G k).filter (fun x => !decide (x ∈ seen)))

/-- Modelled from the spec: the component list described by §4.3 / C6. -/
def componentsSpec (G : Graph V) : List (List V) := csAux G (keys G) []

/-! ### Concrete graphs from the spec's scenarios -/

/-- Scenario-1 graph `{A:[B,C], B:[A,D,E], C:[A,F], D:[B], E:[B,F], F:[C,E]}`. -/
def exGraph : Graph String :=
  [("A", ["B", "C"]), ("B", ["A", "D", "E"]), ("C", ["A", "F"]),
   ("D", ["B"]), ("E", ["B", "F"]), ("F", ["C", "E"])]

/-- Scenario-3 graph `{A:[B,C], B:[A,C], C:[A,B], D:[E], E:[D], F:[]}`. -/
def exGraph2 : Graph String :=
  [("A", ["B", "C"]), ("B", ["A", "C"]), ("C", ["A", "B"]),
   ("D", ["E"]), ("E", ["D"]), ("F", [])]

/-- A malformed graph: the adjacency target `B` is not a key. -/
def badGraph : Graph String := [("A", ["B"])]

/-- Graph showing that an empty-adjacency key need not form a singleton
component: `F` is reached from `A` first. -/
def cexGraph : Graph String := [("A", ["F"]), ("F", [])]

/-! ### Basic lemmas: lookup and adjacency -/

theorem lookupList_eq_some {G : Graph V} {v : V} {l : List V}
    (h : lookupList G v = some l) : v ∈ keys G ∧ l ∈ G.map Prod.snd := by
  induction G with
  | nil => simp [lookupList] at h
  | cons p rest ih =>
      obtain ⟨k, al⟩ := p
      by_cases hv : v = k
      · subst hv
        simp [lookupList] at h
        subst h
        exact ⟨by simp [keys], by simp⟩
      · rw [lookupList, if_neg hv] at h
        obtain ⟨h1, h2⟩ := ih h
        exact ⟨by simp [keys] at h1 ⊢; exact Or.inr h1, by simp at h2 ⊢; exact Or.inr h2⟩

theorem lookupList_eq_none {G : Graph V} {v : V} (h : v ∉ keys G) :
    lookupList G v = none := by
  induction G with
  | nil => rfl
  | cons p rest ih =>
      obtain ⟨k, al⟩ := p
      simp [keys] at h
      rw [lookupList, if_neg h.1]
      exact ih (by simp [keys]; exact h.2)

theorem adj_of_not_mem_keys {G : Graph V} {v : V} (h : v ∉ keys G) : adj G v = [] := by
  rw [adj, lookupList_eq_none h]; rfl

theorem mem_keys_of_adj_ne_nil {G : Graph V} {v : V} (h : adj G v ≠ []) : v ∈ keys G := by
  by_contra hv
  exact h (adj_of_not_mem_keys hv)

theorem adj_subset_targets (G : Graph V) (v : V) : ∀ x ∈ adj G v, x ∈ adjTargets G := by
  intro x hx
  rw [adj] at hx
  cases hl : lookupList G v with
  | none => rw [hl] at hx; simp at hx
  | some l =>
      rw [hl] at hx
      simp at hx
      obtain ⟨-, h2⟩ := lookupList_eq_some hl
      rw [adjTargets, List.mem_flatten]
      exact ⟨l, h2, hx⟩

/-! ### Lemmas about `newNeighbors` -/

theorem newNeighbors_sub : ∀ {l vis : List V} {x : V},
    x ∈ newNeighbors vis l → x ∈ l ∧ x ∉ vis := by
  intro l
  induction l with
  | nil => intro vis x h; simp [newNeighbors] at h
  | cons n ns ih =>
      intro vis x h
      rw [newNeighbors] at h
      by_cases hn : n ∈ vis
      · rw [if_pos hn] at h
        obtain ⟨h1, h2⟩ := ih h
        exact ⟨List.mem_cons_of_mem _ h1, h2⟩
      · rw [if_neg hn] at h
        rcases List.mem_cons.mp h with h | h
        · subst h; exact ⟨List.mem_cons_self _ _, hn⟩
        · obtain ⟨h1, h2⟩ := ih h
          refine ⟨List.mem_cons_of_mem _ h1, fun hx => h2 ?_⟩
          simp [hx]

theorem newNeighbors_nodup : ∀ (l vis : List V), (newNeighbors vis l).Nodup := by
  intro l
  induction l with
  | nil => intro vis; simp [newNeighbors]
  | cons n ns ih =>
      intro vis
      rw [newNeighbors]
      by_cases hn : n ∈ vis
      · rw [if_pos hn]; exact ih vis
      · rw [if_neg hn]
        refine List.nodup_cons.mpr ⟨fun hmem => ?_, ih (vis ++ [n])⟩
        have := (newNeighbors_sub hmem).2
        simp at this

theorem newNeighbors_complete : ∀ {l vis : List V},
    ∀ x ∈ l, x ∈ vis ∨ x ∈ newNeighbors vis l := by
  intro l
  induction l with
  | nil => intro vis x h; simp at h
  | cons n ns ih =>
      intro vis x h
      rw [newNeighbors]
      by_cases hn : n ∈ vis
      · rw [if_pos hn]
        rcases List.mem_cons.mp h with h | h
        · subst h; exact Or.inl hn
        · exact ih x h
      · rw [if_neg hn]
        rcases List.mem_cons.mp h with h | h
        · subst h; exact Or.inr (List.mem_cons_self _ _)
        · rcases @ih (vis ++ [n]) x h with h' | h'
          · rcases List.mem_append.mp h' with h' | h'
            · exact Or.inl h'
            · simp at h'; subst h'; exact Or.inr (List.mem_cons_self _ _)
          · exact Or.inr (List.mem_cons_of_mem _ h')

/-! ### Lemmas about the core loop `bfsAux` -/

theorem bfsAux_nil (G : Graph V) (fuel : Nat) (vis acc : List V) :
    bfsAux G fuel [] vis acc = some (acc.reverse, vis) := by
  cases fuel <;> rfl

theorem bfsAux_cons (G : Graph V) (f : Nat) (v : V) (q vis acc : List V) :
    bfsAux G (f + 1) (v :: q) vis acc =
      bfsAux G f (q ++ newNeighbors vis (adj G v))
        (vis ++ newNeighbors vis (adj G v)) (v :: acc) := rfl

theorem bfsAux_acc (G : Graph V) : ∀ (fuel : Nat) (q vis acc : List V),
    bfsAux G fuel q vis acc =
      (bfsAux G fuel q vis []).map (fun rv => (acc.reverse ++ rv.1, rv.2)) := by
  intro fuel
  induction fuel with
  | zero =>
      intro q vis acc
      cases q <;> simp [bfsAux]
  | succ f ih =>
      intro q vis acc
      cases q with
      | nil => simp [bfsAux]
      | cons v q' =>
          show bfsAux G f _ _ (v :: acc) = (bfsAux G f _ _ [v]).map _
          rw [ih _ _ (v :: acc), ih _ _ [v]]
          cases bfsAux G f (q' ++ newNeighbors vis (adj G v))
              (vis ++ newNeighbors vis (adj G v)) [] with
          | none => rfl
          | some rv => simp

theorem bfsAux_mono (G : Graph V) : ∀ {f f' : Nat}, f ≤ f' →
    ∀ {q vis acc : List V} {r : List V × List V},
    bfsAux G f q vis acc = some r → bfsAux G f' q vis acc = some r := by
  intro f
  induction f with
  | zero =>
      intro f' _ q vis acc r h
      cases q with
      | nil => rw [bfsAux_nil] at h ⊢; exact h
      | cons v q' => simp [bfsAux] at h
  | succ g ih =>
      intro f' hf q vis acc r h
      cases q with
      | nil => rw [bfsAux_nil] at h ⊢; exact h
      | cons v q' =>
          obtain ⟨g', rfl⟩ : ∃ g', f' = g' + 1 :=
            ⟨f' - 1, by omega⟩
          rw [bfsAux_cons] at h ⊢
          exact ih (by omega) h

theorem bfsAux_agree {G : Graph V} {f₁ f₂ : Nat} {q vis acc : List V}
    {r₁ r₂ : List V × List V} (h₁ : bfsAux G f₁ q vis acc = some r₁)
    (h₂ : bfsAux G f₂ q vis acc = some r₂) : r₁ = r₂ := by
  have h₁' := bfsAux_mono G (Nat.le_max_left f₁ f₂) h₁
  have h₂' := bfsAux_mono G (Nat.le_max_right f₁ f₂) h₂
  rw [h₁'] at h₂'
  exact (Option.some.injEq _ _ ▸ h₂').symm ▸ rfl

/-- Potential function bounding the number of remaining loop iterations. -/
def phi (G : Graph V) (q vis : List V) : Nat :=
  q.length + ((univList G).toFinset \ vis.toFinset).card

theorem phi_step {G : Graph V} {q vis : List V} (v : V) :
    phi G (q ++ newNeighbors vis (adj G v)) (vis ++ newNeighbors vis (adj G v)) + 1 =
      phi G (v :: q) vis := by
  set ns := newNeighbors vis (adj G v) with hns
  have hsub : ns.toFinset ⊆ (univList G).toFinset \ vis.toFinset := by
    intro x hx
    rw [List.mem_toFinset] at hx
    obtain ⟨h1, h2⟩ := newNeighbors_sub hx
    rw [Finset.mem_sdiff, List.mem_toFinset, List.mem_toFinset]
    exact ⟨List.mem_append_right _ (adj_subset_targets G v x h1), h2⟩
  have hcard : ns.toFinset.card = ns.length :=
    List.toFinset_card_of_nodup (newNeighbors_nodup _ _)
  have hdiff : (univList G).toFinset \ (vis ++ ns).toFinset =
      ((univList G).toFinset \ vis.toFinset) \ ns.toFinset := by
    rw [List.toFinset_append, ← Finset.sup_eq_union, ← sdiff_sdiff]
  have hle : ns.length ≤ ((univList G).toFinset \ vis.toFinset).card := by
    rw [← hcard]; exact Finset.card_le_card hsub
  have hc2 : (((univList G).toFinset \ vis.toFinset) \ ns.toFinset).card =
      ((univList G).toFinset \ vis.toFinset).card - ns.length := by
    rw [Finset.card_sdiff hsub, hcard]
  rw [phi, phi, hdiff, hc2]
  simp only [List.length_append, List.length_cons]
  omega

theorem bfsAux_total (G : Graph V) : ∀ (fuel : Nat) (q vis acc : List V),
    phi G q vis < fuel → (bfsAux G fuel q vis acc).isSome := by
  intro fuel
  induction fuel with
  | zero => intro q vis acc h; omega
  | succ f ih =>
      intro q vis acc h
      cases q with
      | nil => rw [bfsAux_nil]; rfl
      | cons v q' =>
          rw [bfsAux_cons]
          refine ih _ _ _ ?_
          have := @phi_step V _ G q' vis v
          omega

theorem phi_le_stdFuel (G : Graph V) (v : V) (vis : List V) :
    phi G [v] vis < stdFuel G := by
  rw [phi, stdFuel]
  have h1 : ((univList G).toFinset \ vis.toFinset).card ≤ (univList G).toFinset.card :=
    Finset.card_le_card (Finset.sdiff_subset)
  have h2 : (univList G).toFinset.card ≤ (univList G).length := List.toFinset_card_le _
  simp only [List.length_cons, List.length_nil]
  omega

/-- Decomposition of a completed run: the result is the initial queue followed
by a list of freshly discovered vertices, which is also exactly what is added
to the visited list. -/
theorem bfsAux_run_decomp (G : Graph V) : ∀ (fuel : Nat) (q vis : List V)
    {r vf : List V}, bfsAux G fuel q vis [] = some (r, vf) →
    ∃ tail, r = q ++ tail ∧ vf = vis ++ tail ∧ tail.Nodup ∧
      (∀ x ∈ tail, x ∉ vis) ∧ (∀ x ∈ tail, x ∈ adjTargets G) := by
  intro fuel
  induction fuel with
  | zero =>
      intro q vis r vf h
      cases q with
      | nil =>
          rw [bfsAux_nil] at h
          simp at h
          exact ⟨[], by simp [h.1.symm], by simp [h.2.symm], by simp, by simp, by simp⟩
      | cons v q' => simp [bfsAux] at h
  | succ f ih =>
      intro q vis r vf h
      cases q with
      | nil =>
          rw [bfsAux_nil] at h
          simp at h
          exact ⟨[], by simp [h.1.symm], by simp [h.2.symm], by simp, by simp, by simp⟩
      | cons v q' =>
          rw [bfsAux_cons, bfsAux_acc] at h
          set ns := newNeighbors vis (adj G v) with hns
          cases hin : bfsAux G f (q' ++ ns) (vis ++ ns) [] with
          | none => rw [hin] at h; simp at h
          | some rv =>
              rw [hin] at h
              obtain ⟨r₁, vf₁⟩ := rv
              simp at h
              obtain ⟨hr, hvf⟩ := h
              obtain ⟨t, ht1, ht2, ht3, ht4, ht5⟩ := ih _ _ hin
              refine ⟨ns ++ t, ?_, ?_, ?_, ?_, ?_⟩
              · rw [← hr, ht1]; simp
              · rw [← hvf, ht2]; simp
              · rw [List.nodup_append]
                refine ⟨newNeighbors_nodup _ _, ht3, fun x hx hxt => ?_⟩
                exact (ht4 x hxt) (List.mem_append_right _ hx)
              · intro x hx
                rcases List.mem_append.mp hx with hx | hx
                · exact (newNeighbors_sub hx).2
                · intro hv
                  exact (ht4 x hx) (List.mem_append_left _ hv)
              · intro x hx
                rcases List.mem_append.mp hx with hx | hx
                · exact adj_subset_targets G v x (newNeighbors_sub hx).1
                · exact ht5 x hx

/-- If every visited vertex is pending or already fully expanded, then the
final visited list is closed under adjacency. -/
theorem bfsAux_closed (G : Graph V) : ∀ (fuel : Nat) (q vis acc : List V)
    {r vf : List V}, bfsAux G fuel q vis acc = some (r, vf) →
    (∀ y ∈ vis, y ∈ q ∨ ∀ x ∈ adj G y, x ∈ vis) →
    ∀ y ∈ vf, ∀ x ∈ adj G y, x ∈ vf := by
  intro fuel
  induction fuel with
  | zero =>
      intro q vis acc r vf h hcl
      cases q with
      | nil =>
          rw [bfsAux_nil] at h
          simp at h
          obtain ⟨-, h2⟩ := h
          subst h2
          intro y hy x hx
          rcases hcl y hy with h' | h'
          · simp at h'
          · exact h' x hx
      | cons v q' => simp [bfsAux] at h
  | succ f ih =>
      intro q vis acc r vf h hcl
      cases q with
      | nil =>
          rw [bfsAux_nil] at h
          simp at h
          obtain ⟨-, h2⟩ := h
          subst h2
          intro y hy x hx
          rcases hcl y hy with h' | h'
          · simp at h'
          · exact h' x hx
      | cons v q' =>
          rw [bfsAux_cons] at h
          set ns := newNeighbors vis (adj G v) with hns
          refine ih _ _ _ h ?_
          intro y hy
          rcases List.mem_append.mp hy with hy | hy
          · rcases hcl y hy with h' | h'
            · rcases List.mem_cons.mp h' with h' | h'
              · subst h'
                right
                intro x hx
                rcases newNeighbors_complete x hx with h'' | h''
                · exact List.mem_append_left _ h''
                · exact List.mem_append_right _ h''
              · exact Or.inl (List.mem_append_left _ h')
            · right
              intro x hx
              exact List.mem_append_left _ (h' x hx)
          · exact Or.inl (List.mem_append_right _ hy)

/-- Every vertex in the result is reachable from `s`, provided queue and
accumulator contain only reachable vertices. -/
theorem bfsAux_reach (G : Graph V) (s : V) : ∀ (fuel : Nat) (q vis acc : List V)
    {r vf : List V}, bfsAux G fuel q vis acc = some (r, vf) →
    (∀ x ∈ q, Reachable G s x) → (∀ x ∈ acc, Reachable G s x) →
    ∀ x ∈ r, Reachable G s x := by
  intro fuel
  induction fuel with
  | zero =>
      intro q vis acc r vf h hq hacc
      cases q with
      | nil =>
          rw [bfsAux_nil] at h
          simp at h
          intro x hx
          rw [← h.1] at hx
          exact hacc x (List.mem_reverse.mp hx)
      | cons v q' => simp [bfsAux] at h
  | succ f ih =>
      intro q vis acc r vf h hq hacc
      cases q with
      | nil =>
          rw [bfsAux_nil] at h
          simp at h
          intro x hx
          rw [← h.1] at hx
          exact hacc x (List.mem_reverse.mp hx)
      | cons v q' =>
          rw [bfsAux_cons] at h
          refine ih _ _ _ h ?_ ?_
          · intro x hx
            rcases List.mem_append.mp hx with hx | hx
            · exact hq x (List.mem_cons_of_mem _ hx)
            · exact Relation.ReflTransGen.tail (hq v (List.mem_cons_self _ _))
                (newNeighbors_sub hx).1
          · intro x hx
            rcases List.mem_cons.mp hx with hx | hx
            · subst hx; exact hq x (List.mem_cons_self _ _)
            · exact hacc x hx

/-! ### Lemmas about `reachList` and `Reachable` -/

theorem mem_reachList_succ {G : Graph V} {s x : V} {n : Nat} :
    x ∈ reachList G s (n + 1) ↔
      x ∈ reachList G s n ∨ ∃ y ∈ reachList G s n, x ∈ adj G y := by
  rw [reachList]
  simp [List.mem_flatten]

theorem reachList_succ_self {G : Graph V} {s x : V} {n : Nat}
    (h : x ∈ reachList G s n) : x ∈ reachList G s (n + 1) :=
  mem_reachList_succ.mpr (Or.inl h)

theorem reachList_mono {G : Graph V} {s x : V} {m n : Nat} (hmn : m ≤ n)
    (h : x ∈ reachList G s m) : x ∈ reachList G s n := by
  induction n with
  | zero =>
      have : m = 0 := Nat.le_zero.mp hmn
      subst this; exact h
  | succ k ih =>
      rcases Nat.lt_or_ge m (k + 1) with h' | h'
      · exact reachList_succ_self (ih (by omega))
      · have : m = k + 1 := by omega
        subst this; exact h

theorem self_mem_reachList (G : Graph V) (s : V) (n : Nat) : s ∈ reachList G s n := by
  induction n with
  | zero => simp [reachList]
  | succ k ih => exact reachList_succ_self ih

theorem adj_mem_reachList {G : Graph V} {s y x : V} {n : Nat}
    (hy : y ∈ reachList G s n) (hx : x ∈ adj G y) : x ∈ reachList G s (n + 1) :=
  mem_reachList_succ.mpr (Or.inr ⟨y, hy, hx⟩)

theorem reachable_iff_reachList {G : Graph V} {s x : V} :
    Reachable G s x ↔ ∃ n, x ∈ reachList G s n := by
  constructor
  · intro h
    induction h with
    | refl => exact ⟨0, by simp [reachList]⟩
    | tail _ hbc ih =>
        obtain ⟨n, hn⟩ := ih
        exact ⟨n + 1, adj_mem_reachList hn hbc⟩
  · rintro ⟨n, hn⟩
    induction n generalizing x with
    | zero =>
        simp [reachList] at hn
        subst hn
        exact Relation.ReflTransGen.refl
    | succ k ih =>
        rcases mem_reachList_succ.mp hn with h | ⟨y, hy, hxy⟩
        · exact ih h
        · exact Relation.ReflTransGen.tail (ih hy) hxy

theorem reachable_subset_closed {G : Graph V} {s : V} {S : List V}
    (hcl : ∀ y ∈ S, ∀ x ∈ adj G y, x ∈ S) (hs : s ∈ S) :
    ∀ x, Reachable G s x → x ∈ S := by
  intro x h
  induction h with
  | refl => exact hs
  | tail _ hbc ih => exact hcl _ ih _ hbc

/-- A walk of `k` edges from `s` lands inside `reachList k`: position `i` of
the walk is in `reachList i`. -/
theorem chain_get_mem_reachList {G : Graph V} {s : V} {p : List V}
    (hh : p.head? = some s) (hc : List.Chain' (Edge G) p) :
    ∀ i (hi : i < p.length), p.get ⟨i, hi⟩ ∈ reachList G s i := by
  intro i
  induction i with
  | zero =>
      intro hi
      cases p with
      | nil => simp at hi
      | cons a l =>
          simp at hh
          subst hh
          simp [reachList]
  | succ k ih =>
      intro hi
      have hk : k < p.length := by omega
      have hstep : Edge G (p.get ⟨k, hk⟩) (p.get ⟨k + 1, hi⟩) := by
        have := List.chain'_iff_get.mp hc k (by omega)
        simpa using this
      exact adj_mem_reachList (ih hk) hstep

theorem isPath_getLast_mem_reachList {G : Graph V} {s t : V} {p : List V}
    (h : IsPath G s t p) : t ∈ reachList G s (p.length - 1) := by
  obtain ⟨hne, hh, hl, hc⟩ := h
  have hlen : 0 < p.length := List.length_pos.mpr hne
  have hi : p.length - 1 < p.length := by omega
  have hmem := chain_get_mem_reachList hh hc (p.length - 1) hi
  rw [List.get_length_sub_one hi] at hmem
  rw [List.getLast?_eq_getLast p hne] at hl
  have : p.getLast hne = t := Option.some_inj.mp hl
  rwa [this] at hmem

theorem isPath_reachable {G : Graph V} {s t : V} {p : List V}
    (h : IsPath G s t p) : Reachable G s t :=
  reachable_iff_reachList.mpr ⟨p.length - 1, isPath_getLast_mem_reachList h⟩

/-! ### The queue loop processes the graph level by level -/

theorem bfsAux_split (G : Graph V) : ∀ (q₁ : List V) (q₂ vis : List V) {f : Nat}
    {r vf : List V}, bfsAux G f (q₁ ++ q₂) vis [] = some (r, vf) →
    ∃ f' r', bfsAux G f' (q₂ ++ collectNew G vis q₁)
        (vis ++ collectNew G vis q₁) [] = some (r', vf) ∧ r = q₁ ++ r' := by
  intro q₁
  induction q₁ with
  | nil =>
      intro q₂ vis f r vf h
      refine ⟨f, r, ?_, by simp⟩
      simpa [collectNew] using h
  | cons v q₁' ih =>
      intro q₂ vis f r vf h
      cases f with
      | zero => simp [bfsAux] at h
      | succ g =>
          rw [show ((v :: q₁') ++ q₂) = v :: (q₁' ++ q₂) from rfl, bfsAux_cons,
            bfsAux_acc] at h
          set ns := newNeighbors vis (adj G v) with hns
          cases hin : bfsAux G g ((q₁' ++ q₂) ++ ns) (vis ++ ns) [] with
          | none => rw [hin] at h; simp at h
          | some rv =>
              rw [hin] at h
              obtain ⟨r₁, vf₁⟩ := rv
              simp at h
              obtain ⟨hr, hvf⟩ := h
              subst hvf
              rw [show (q₁' ++ q₂) ++ ns = q₁' ++ (q₂ ++ ns) by simp] at hin
              obtain ⟨f', r'', hrun, hr''⟩ := ih (q₂ ++ ns) (vis ++ ns) hin
              refine ⟨f', r'', ?_, ?_⟩
              · have hcn : collectNew G vis (v :: q₁') =
                    ns ++ collectNew G (vis ++ ns) q₁' := rfl
                rw [hcn]
                simpa [List.append_assoc] using hrun
              · rw [← hr, hr'']
                simp
  
theorem bfsAux_levelRun (G : Graph V) : ∀ (n : Nat) (r : List V), r.length ≤ n →
    ∀ (l vis : List V) {f : Nat} {vf : List V},
    bfsAux G f l vis [] = some (r, vf) → ∃ f', r = levelRun G f' l vis := by
  intro n
  induction n with
  | zero =>
      intro r hr l vis f vf h
      cases l with
      | nil =>
          rw [bfsAux_nil] at h
          simp at h
          exact ⟨1, by rw [h.1]; rfl⟩
      | cons v l' =>
          rw [show (v :: l') = (v :: l') ++ [] by simp] at h
          obtain ⟨f', r', -, hr'⟩ := bfsAux_split G (v :: l') [] vis h
          subst hr'
          simp at hr
  | succ k ih =>
      intro r hr l vis f vf h
      cases l with
      | nil =>
          rw [bfsAux_nil] at h
          simp at h
          exact ⟨1, by rw [h.1]; rfl⟩
      | cons v l' =>
          rw [show (v :: l') = (v :: l') ++ [] by simp] at h
          obtain ⟨f', r', hrun, hr'⟩ := bfsAux_split G (v :: l') [] vis h
          rw [List.nil_append] at hrun
          have hlen : r'.length ≤ k := by
            subst hr'
            simp at hr
            omega
          obtain ⟨f'', hlev⟩ := ih r' hlen _ _ hrun
          refine ⟨f'' + 1, ?_⟩
          rw [hr', hlev]
          rfl

/-! ### Lemmas about `collectNew` -/

theorem collectNew_sub (G : Graph V) : ∀ {l vis : List V} {x : V},
    x ∈ collectNew G vis l → (∃ y ∈ l, x ∈ adj G y) ∧ x ∉ vis := by
  intro l
  induction l with
  | nil => intro vis x h; simp [collectNew] at h
  | cons v l' ih =>
      intro vis x h
      rw [collectNew] at h
      rcases List.mem_append.mp h with h | h
      · exact ⟨⟨v, List.mem_cons_self _ _, (newNeighbors_sub h).1⟩, (newNeighbors_sub h).2⟩
      · obtain ⟨⟨y, hy, hxy⟩, hnv⟩ := ih h
        refine ⟨⟨y, List.mem_cons_of_mem _ hy, hxy⟩, fun hx => hnv ?_⟩
        exact List.mem_append_left _ hx

theorem collectNew_complete (G : Graph V) : ∀ {l vis : List V},
    ∀ y ∈ l, ∀ x ∈ adj G y, x ∈ vis ∨ x ∈ collectNew G vis l := by
  intro l
  induction l with
  | nil => intro vis y hy; simp at hy
  | cons v l' ih =>
      intro vis y hy x hx
      rw [collectNew]
      rcases List.mem_cons.mp hy with hy | hy
      · subst hy
        rcases newNeighbors_complete x hx with h | h
        · exact Or.inl h
        · exact Or.inr (List.mem_append_left _ h)
      · rcases ih y hy x hx with h | h
        · rcases List.mem_append.mp h with h | h
          · exact Or.inl h
          · exact Or.inr (List.mem_append_left _ h)
        · exact Or.inr (List.mem_append_right _ h)

theorem pairwise_of_forall_mem {α : Type} {R : α → α → Prop} :
    ∀ {l : List α}, (∀ a ∈ l, ∀ b ∈ l, R a b) → l.Pairwise R := by
  intro l
  induction l with
  | nil => intro _; exact List.Pairwise.nil
  | cons a l' ih =>
      intro h
      refine List.Pairwise.cons (fun b hb => ?_) (ih fun x hx y hy => ?_)
      · exact h a (List.mem_cons_self _ _) b (List.mem_cons_of_mem _ hb)
      · exact h x (List.mem_cons_of_mem _ hx) y (List.mem_cons_of_mem _ hy)

/-- Depth ordering of the level-synchronous run: if the current level is
exactly the depth-`n` frontier, the emitted order is sorted by BFS depth. -/
theorem levelRun_sorted (G : Graph V) (s : V) : ∀ (f : Nat) (l vis : List V) (n : Nat),
    (∀ x ∈ l, x ∈ reachList G s n ∧ ∀ m, x ∈ reachList G s m → n ≤ m) →
    (∀ x, x ∈ vis ↔ x ∈ reachList G s n) →
    (∀ y ∈ vis, ∀ x ∈ adj G y, x ∈ vis ∨ x ∈ collectNew G vis l) →
    (levelRun G f l vis).Pairwise (DepthLE G s) ∧
      ∀ x ∈ levelRun G f l vis, ∀ m, x ∈ reachList G s m → n ≤ m := by
  intro f
  induction f with
  | zero =>
      intro l vis n _ _ _
      cases l <;> simp [levelRun]
  | succ g ih =>
      intro l vis n hE hV1 hV2
      cases l with
      | nil => simp [levelRun]
      | cons v l' =>
          have hrun : levelRun G (g + 1) (v :: l') vis =
              (v :: l') ++ levelRun G g (collectNew G vis (v :: l'))
                (vis ++ collectNew G vis (v :: l')) := rfl
          set cn := collectNew G vis (v :: l') with hcn
          have hE' : ∀ x ∈ cn, x ∈ reachList G s (n + 1) ∧
              ∀ m, x ∈ reachList G s m → n + 1 ≤ m := by
            intro x hx
            obtain ⟨⟨y, hy, hxy⟩, hnx⟩ := collectNew_sub G hx
            refine ⟨adj_mem_reachList (hE y hy).1 hxy, fun m hm => ?_⟩
            by_contra hlt
            exact hnx ((hV1 x).mpr (reachList_mono (by omega) hm))
          have hV1' : ∀ x, x ∈ vis ++ cn ↔ x ∈ reachList G s (n + 1) := by
            intro x
            constructor
            · intro hx
              rcases List.mem_append.mp hx with hx | hx
              · exact reachList_succ_self ((hV1 x).mp hx)
              · exact (hE' x hx).1
            · intro hx
              rcases mem_reachList_succ.mp hx with hx | ⟨y, hy, hxy⟩
              · exact List.mem_append_left _ ((hV1 x).mpr hx)
              · rcases hV2 y ((hV1 y).mpr hy) x hxy with h | h
                · exact List.mem_append_left _ h
                · exact List.mem_append_right _ h
          have hV2' : ∀ y ∈ vis ++ cn, ∀ x ∈ adj G y,
              x ∈ vis ++ cn ∨ x ∈ collectNew G (vis ++ cn) cn := by
            intro y hy x hx
            rcases List.mem_append.mp hy with hy | hy
            · rcases hV2 y hy x hx with h | h
              · exact Or.inl (List.mem_append_left _ h)
              · exact Or.inl (List.mem_append_right _ h)
            · exact collectNew_complete G y hy x hx
          obtain ⟨hps, hmin⟩ := ih cn (vis ++ cn) (n + 1) hE' hV1' hV2'
          rw [hrun]
          constructor
          · rw [List.pairwise_append]
            refine ⟨pairwise_of_forall_mem fun a ha b hb => ?_, hps,
              fun a ha b hb => ?_⟩
            · intro k hk
              exact reachList_mono ((hE b hb).2 k hk) (hE a ha).1
            · intro k hk
              have hk1 : n + 1 ≤ k := hmin b hb k hk
              exact reachList_mono (by omega) (hE a ha).1
          · intro x hx m hm
            rcases List.mem_append.mp hx with hx | hx
            · exact (hE x hx).2 m hm
            · have := hmin x hx m hm
              omega

/-! ### The full specification of the traversal result -/

theorem bfsOrder_run (G : Graph V) (s : V) :
    bfsAux G (stdFuel G) [s] [s] [] = some (bfsOrder G s, bfsOrder G s) := by
  have htot := bfsAux_total G (stdFuel G) [s] [s] [] (phi_le_stdFuel G s [s])
  obtain ⟨⟨r, vf⟩, hrv⟩ := Option.isSome_iff_exists.mp htot
  have hr : bfsOrder G s = r := by rw [bfsOrder, hrv]; rfl
  obtain ⟨tail, ht1, ht2, -, -, -⟩ := bfsAux_run_decomp G _ _ _ hrv
  have hvf : vf = r := by rw [ht2, ht1]
  rw [hrv, hr, hvf]

theorem bfsOrder_spec (G : Graph V) (s : V) :
    (∀ v, v ∈ bfsOrder G s ↔ Reachable G s v) ∧
    (bfsOrder G s).Nodup ∧
    (bfsOrder G s).head? = some s ∧
    (bfsOrder G s).Pairwise (DepthLE G s) ∧
    ∃ f, bfsOrder G s = levelRun G f [s] [s] := by
  have hrun := bfsOrder_run G s
  set r := bfsOrder G s with hrdef
  obtain ⟨tail, ht1, ht2, ht3, ht4, -⟩ := bfsAux_run_decomp G _ _ _ hrun
  have hmem : ∀ v, v ∈ r ↔ Reachable G s v := by
    intro v
    constructor
    · intro hv
      refine bfsAux_reach G s _ _ _ _ hrun ?_ ?_ v hv
      · intro x hx
        simp at hx
        subst hx
        exact Relation.ReflTransGen.refl
      · intro x hx
        simp at hx
    · intro hv
      have hcl : ∀ y ∈ r, ∀ x ∈ adj G y, x ∈ r := by
        refine bfsAux_closed G _ _ _ _ hrun ?_
        intro y hy
        exact Or.inl hy
      have hsr : s ∈ r := by rw [ht1]; simp
      exact reachable_subset_closed hcl hsr v hv
  refine ⟨hmem, ?_, ?_, ?_, ?_⟩
  · rw [ht1]
    refine List.nodup_cons.mpr ⟨fun hs => ?_, ht3⟩
    have := ht4 s hs
    simp at this
  · rw [ht1]; rfl
  · obtain ⟨f, hf⟩ := bfsAux_levelRun G r.length r le_rfl [s] [s] hrun
    rw [hf]
    refine (levelRun_sorted G s f [s] [s] 0 ?_ ?_ ?_).1
    · intro x hx
      simp at hx
      rw [hx]
      exact ⟨self_mem_reachList G s 0, fun m _ => Nat.zero_le m⟩
    · intro x
      simp [reachList]
    · intro y hy x hx
      simp at hy
      rw [hy] at hx
      rcases @newNeighbors_complete V _ (adj G s) [s] x hx with h | h
      · exact Or.inl h
      · right
        rw [collectNew]
        exact List.mem_append_left _ h
  · exact bfsAux_levelRun G r.length r le_rfl [s] [s] hrun

/-- C1: For every graph `G` and start vertex `s` that is a key of `G`,
`breadth_first_search(G, s)` returns exactly the vertices reachable from `s`
(adjacency targets included), each exactly once, with `s` first, in
non-decreasing BFS-depth order, with ties broken level-synchronously by
adjacency-list order of the discovering vertex (the `levelRun` form); on the
scenario-1 graph the traversal from `A` is exactly `[A,B,C,D,E,F]`. -/
theorem traversal_correct :
    (∀ (V : Type) [DecidableEq V] (G : Graph V) (s : V), s ∈ keys G →
      ∃ r, breadth_first_search G s = Except.ok r ∧
        (∀ v, v ∈ r ↔ Reachable G s v) ∧
        r.Nodup ∧ r.head? = some s ∧
        r.Pairwise (DepthLE G s) ∧
        ∃ f, r = levelRun G f [s] [s]) ∧
    breadth_first_search exGraph "A" = Except.ok ["A", "B", "C", "D", "E", "F"] := by
  constructor
  · intro V _ G s hs
    obtain ⟨h1, h2, h3, h4, h5⟩ := bfsOrder_spec G s
    exact ⟨bfsOrder G s, by rw [breadth_first_search, if_pos hs], h1, h2, h3, h4, h5⟩
  · rfl

/-- Witness for C1 at the scenario-1 graph and start vertex `A`. -/
theorem traversal_correct_witness :
    ("A" ∈ keys exGraph) ∧
    ∃ r, breadth_first_search exGraph "A" = Except.ok r ∧
      (∀ v, v ∈ r ↔ Reachable exGraph "A" v) ∧
      r.Nodup ∧ r.head? = some "A" ∧
      r.Pairwise (DepthLE exGraph "A") ∧
      ∃ f, r = levelRun exGraph f ["A"] ["A"] :=
  ⟨by decide, traversal_correct.1 String exGraph "A" (by decide)⟩

/-- C5: `breadth_first_search` raises the vertex-not-found error iff the
start vertex is not a key; the other two operations return plain values and
cannot raise (their embedded types are error-free). -/
theorem traversal_error_iff :
    ∀ (V : Type) [DecidableEq V] (G : Graph V) (s : V),
      breadth_first_search G s = Except.error BfsError.vertexNotFound ↔ s ∉ keys G := by
  intro V _ G s
  rw [breadth_first_search]
  by_cases h : s ∈ keys G
  · simp [h]
  · simp [h]

/-- Witness for C5: concrete scenario 4, traversal from the absent vertex
`Z` fails with the vertex-not-found error. -/
theorem traversal_error_iff_witness :
    breadth_first_search exGraph "Z" = Except.error BfsError.vertexNotFound :=
  (traversal_error_iff String exGraph "Z").mpr (by decide)

/-- C7: for a key `s`, `bfs_shortest_path G s s = [s]`, produced by the
short-circuit before any traversal. -/
theorem shortest_path_self :
    ∀ (V : Type) [DecidableEq V] (G : Graph V) (s : V), s ∈ keys G →
      bfs_shortest_path G s s = some [s] := by
  intro V _ G s hs
  rw [bfs_shortest_path, if_pos ⟨hs, hs⟩, if_pos rfl]

/-- Witness for C7 at the scenario-1 graph. -/
theorem shortest_path_self_witness :
    ("A" ∈ keys exGraph) ∧ bfs_shortest_path exGraph "A" "A" = some ["A"] :=
  ⟨by decide, shortest_path_self String exGraph "A" (by decide)⟩

/-! ### Lemmas about the shortest-path loop -/

theorem spScan_ok {t : V} {p : List V} : ∀ {l vis : List V} {q : List (V × List V)}
    {vis' : List V} {q' : List (V × List V)},
    spScan t p l vis q = Except.ok (vis', q') →
    ∃ fresh : List V, vis' = vis ++ fresh ∧
      q' = q ++ fresh.map (fun n => (n, p ++ [n])) ∧
      fresh.Nodup ∧ (∀ x ∈ fresh, x ∈ l ∧ x ∉ vis) ∧ (∀ x ∈ l, x ≠ t) ∧
      (∀ x ∈ l, x ∈ vis ∨ x ∈ fresh) := by
  intro l
  induction l with
  | nil =>
      intro vis q vis' q' h
      rw [spScan] at h
      simp at h
      exact ⟨[], by simp [h.1.symm], by simp [h.2.symm], by simp, by simp, by simp, by simp⟩
  | cons n ns ih =>
      intro vis q vis' q' h
      rw [spScan] at h
      by_cases hnt : n = t
      · rw [if_pos hnt] at h; simp at h
      · rw [if_neg hnt] at h
        by_cases hnv : n ∈ vis
        · rw [if_pos hnv] at h
          obtain ⟨fresh, h1, h2, h3, h4, h5, h6⟩ := ih h
          refine ⟨fresh, h1, h2, h3, ?_, ?_, ?_⟩
          · intro x hx
            exact ⟨List.mem_cons_of_mem _ (h4 x hx).1, (h4 x hx).2⟩
          · intro x hx
            rcases List.mem_cons.mp hx with hx | hx
            · subst hx; exact hnt
            · exact h5 x hx
          · intro x hx
            rcases List.mem_cons.mp hx with hx | hx
            · subst hx; exact Or.inl hnv
            · exact h6 x hx
        · rw [if_neg hnv] at h
          obtain ⟨fresh, h1, h2, h3, h4, h5, h6⟩ := ih h
          refine ⟨n :: fresh, ?_, ?_, ?_, ?_, ?_, ?_⟩
          · rw [h1]; simp
          · rw [h2]; simp
          · refine List.nodup_cons.mpr ⟨fun hn => ?_, h3⟩
            have := (h4 n hn).2
            simp at this
          · intro x hx
            rcases List.mem_cons.mp hx with hx | hx
            · subst hx; exact ⟨List.mem_cons_self _ _, hnv⟩
            · obtain ⟨hx1, hx2⟩ := h4 x hx
              refine ⟨List.mem_cons_of_mem _ hx1, fun hv => hx2 ?_⟩
              exact List.mem_append_left _ hv
          · intro x hx
            rcases List.mem_cons.mp hx with hx | hx
            · subst hx; exact hnt
            · exact h5 x hx
          · intro x hx
            rcases List.mem_cons.mp hx with hx | hx
            · subst hx; exact Or.inr (List.mem_cons_self _ _)
            · rcases h6 x hx with h' | h'
              · rcases List.mem_append.mp h' with h' | h'
                · exact Or.inl h'
                · simp at h'
                  subst h'
                  exact Or.inr (List.mem_cons_self _ _)
              · exact Or.inr (List.mem_cons_of_mem _ h')

theorem spScan_error {t : V} {p : List V} : ∀ {l vis : List V} {q : List (V × List V)}
    {r : List V}, spScan t p l vis q = Except.error r → r = p ++ [t] ∧ t ∈ l := by
  intro l
  induction l with
  | nil => intro vis q r h; rw [spScan] at h; simp at h
  | cons n ns ih =>
      intro vis q r h
      rw [spScan] at h
      by_cases hnt : n = t
      · rw [if_pos hnt] at h
        simp at h
        subst hnt
        exact ⟨h.symm, List.mem_cons_self _ _⟩
      · rw [if_neg hnt] at h
        by_cases hnv : n ∈ vis
        · rw [if_pos hnv] at h
          obtain ⟨h1, h2⟩ := ih h
          exact ⟨h1, List.mem_cons_of_mem _ h2⟩
        · rw [if_neg hnv] at h
          obtain ⟨h1, h2⟩ := ih h
          exact ⟨h1, List.mem_cons_of_mem _ h2⟩

theorem spAux_nil (G : Graph V) (t : V) (fuel : Nat) (vis : List V) :
    spAux G t fuel [] vis = some none := by
  cases fuel <;> rfl

theorem spAux_cons (G : Graph V) (t : V) (f : Nat) (v : V) (p : List V)
    (q : List (V × List V)) (vis : List V) :
    spAux G t (f + 1) ((v, p) :: q) vis =
      match spScan t p (adj G v) vis q with
      | Except.error found => some (some found)
      | Except.ok (vis', q') => spAux G t f q' vis' := rfl

theorem card_sdiff_append {G : Graph V} {vis fresh : List V} {v : V}
    (hnd : fresh.Nodup) (hsub : ∀ x ∈ fresh, x ∈ adj G v ∧ x ∉ vis) :
    ((univList G).toFinset \ (vis ++ fresh).toFinset).card + fresh.length =
      ((univList G).toFinset \ vis.toFinset).card := by
  have hsub' : fresh.toFinset ⊆ (univList G).toFinset \ vis.toFinset := by
    intro x hx
    rw [List.mem_toFinset] at hx
    rw [Finset.mem_sdiff, List.mem_toFinset, List.mem_toFinset]
    exact ⟨List.mem_append_right _ (adj_subset_targets G v x (hsub x hx).1), (hsub x hx).2⟩
  have hcard : fresh.toFinset.card = fresh.length := List.toFinset_card_of_nodup hnd
  have hdiff : (univList G).toFinset \ (vis ++ fresh).toFinset =
      ((univList G).toFinset \ vis.toFinset) \ fresh.toFinset := by
    rw [List.toFinset_append, ← Finset.sup_eq_union, ← sdiff_sdiff]
  have hle : fresh.length ≤ ((univList G).toFinset \ vis.toFinset).card := by
    rw [← hcard]; exact Finset.card_le_card hsub'
  rw [hdiff, Finset.card_sdiff hsub', hcard]
  omega

theorem spAux_total (G : Graph V) (t : V) : ∀ (fuel : Nat)
    (q : List (V × List V)) (vis : List V),
    phi G (q.map Prod.fst) vis < fuel → (spAux G t fuel q vis).isSome := by
  intro fuel
  induction fuel with
  | zero => intro q vis h; omega
  | succ f ih =>
      intro q vis h
      cases q with
      | nil => rw [spAux_nil]; rfl
      | cons e q' =>
          obtain ⟨v, p⟩ := e
          rw [spAux_cons]
          cases hscan : spScan t p (adj G v) vis q' with
          | error found => rfl
          | ok vq =>
              obtain ⟨vis', q''⟩ := vq
              obtain ⟨fresh, h1, h2, h3, h4, -, -⟩ := spScan_ok hscan
              refine ih q'' vis' ?_
              have hfst : q''.map Prod.fst = q'.map Prod.fst ++ fresh := by
                rw [h2]
                simp [List.map_map, Function.comp_def]
              have hdrop := card_sdiff_append (G := G) (v := v) h3 h4
              rw [phi] at h ⊢
              rw [hfst, h1]
              simp only [List.length_append, List.length_map, List.length_cons] at h ⊢
              omega

/-- Invariant of the shortest-path loop.  `q` and `vis` are the loop state;
`proc` is the ghost list of already-dequeued vertices. -/
structure SpInv (G : Graph V) (s t : V) (q : List (V × List V)) (vis proc : List V) : Prop where
  acct : ∀ x, x ∈ vis ↔ (x ∈ proc ∨ ∃ p, (x, p) ∈ q)
  nodup : (proc ++ q.map Prod.fst).Nodup
  ent : ∀ e ∈ q, IsPath G s e.1 e.2 ∧ e.2.Nodup ∧ (∀ z ∈ e.2, z ∈ vis) ∧
      e.1 ∈ reachList G s (e.2.length - 1) ∧ ∀ m, e.1 ∈ reachList G s m → e.2.length ≤ m + 1
  sorted : q.Pairwise (fun e e' => e.2.length ≤ e'.2.length)
  window : ∀ e ∈ q, ∀ e' ∈ q, e.2.length ≤ e'.2.length + 1
  closedProc : ∀ w ∈ proc, t ∉ adj G w ∧ ∀ x ∈ adj G w, x ∈ vis
  tfresh : t ∉ vis
  headCov : ∀ e, q.head? = some e → ∀ m, m + 2 ≤ e.2.length →
      ∀ x ∈ reachList G s m, x ∈ vis
  headT : ∀ e, q.head? = some e → ∀ m, m + 2 ≤ e.2.length → t ∉ reachList G s m
  smem : s ∈ vis

theorem SpInv.head_min {G : Graph V} {s t v : V} {p : List V}
    {rest : List (V × List V)} {vis proc : List V}
    (inv : SpInv G s t ((v, p) :: rest) vis proc) :
    ∀ e ∈ (v, p) :: rest, p.length ≤ e.2.length := by
  intro e he
  rcases List.mem_cons.mp he with he | he
  · simp [he]
  · exact (List.pairwise_cons.mp inv.sorted).1 e he

theorem SpInv.levCov {G : Graph V} {s t v : V} {p : List V}
    {rest : List (V × List V)} {vis proc : List V}
    (inv : SpInv G s t ((v, p) :: rest) vis proc) :
    ∀ x ∈ reachList G s (p.length - 1), x ∈ vis := by
  have hent := inv.ent (v, p) (List.mem_cons_self _ _)
  have hlen : 1 ≤ p.length := List.length_pos.mpr hent.1.1
  intro x hx
  obtain ⟨k, hk⟩ : ∃ k, p.length = k + 1 := ⟨p.length - 1, by omega⟩
  have hx' : x ∈ reachList G s k := by
    have : p.length - 1 = k := by omega
    rwa [this] at hx
  cases k with
  | zero =>
      simp [reachList] at hx'
      rw [hx']
      exact inv.smem
  | succ d =>
      rcases mem_reachList_succ.mp hx' with h | ⟨y, hy, hxy⟩
      · exact inv.headCov (v, p) rfl d (by simp; omega) x h
      · have hyvis : y ∈ vis := inv.headCov (v, p) rfl d (by simp; omega) y hy
        rcases (inv.acct y).mp hyvis with hproc | ⟨py, hpy⟩
        · exact (inv.closedProc y hproc).2 x hxy
        · exfalso
          have hmin := (inv.ent (y, py) hpy).2.2.2.2 d hy
          have hge := inv.head_min (y, py) hpy
          simp at hmin hge
          omega

theorem SpInv.levT {G : Graph V} {s t v : V} {p : List V}
    {rest : List (V × List V)} {vis proc : List V} (hst : s ≠ t)
    (inv : SpInv G s t ((v, p) :: rest) vis proc) :
    t ∉ reachList G s (p.length - 1) := by
  have hent := inv.ent (v, p) (List.mem_cons_self _ _)
  have hlen : 1 ≤ p.length := List.length_pos.mpr hent.1.1
  intro hx
  obtain ⟨k, hk⟩ : ∃ k, p.length = k + 1 := ⟨p.length - 1, by omega⟩
  have hx' : t ∈ reachList G s k := by
    have : p.length - 1 = k := by omega
    rwa [this] at hx
  cases k with
  | zero =>
      simp [reachList] at hx'
      exact hst hx'.symm
  | succ d =>
      rcases mem_reachList_succ.mp hx' with h | ⟨y, hy, hxy⟩
      · exact inv.headT (v, p) rfl d (by simp; omega) h
      · have hyvis : y ∈ vis := inv.headCov (v, p) rfl d (by simp; omega) y hy
        rcases (inv.acct y).mp hyvis with hproc | ⟨py, hpy⟩
        · exact (inv.closedProc y hproc).1 hxy
        · have hmin := (inv.ent (y, py) hpy).2.2.2.2 d hy
          have hge := inv.head_min (y, py) hpy
          simp at hmin hge
          omega

/-- One dequeue step of the shortest-path loop preserves the invariant
(the case in which the scan does not find the target). -/
theorem SpInv.step {G : Graph V} {s t v : V} {p : List V}
    {rest q' : List (V × List V)} {vis vis' proc : List V} (hst : s ≠ t)
    (inv : SpInv G s t ((v, p) :: rest) vis proc)
    (hscan : spScan t p (adj G v) vis rest = Except.ok (vis', q')) :
    SpInv G s t q' vis' (proc ++ [v]) := by
  obtain ⟨fresh, h1, h2, h3, h4, h5, h6⟩ := spScan_ok hscan
  obtain ⟨hvpPath, hvpNodup, hvpVis, hvpLev, hvpMin⟩ :=
    inv.ent (v, p) (List.mem_cons_self _ _)
  have hplen : 1 ≤ p.length := List.length_pos.mpr hvpPath.1
  have hvisSub : ∀ x ∈ vis, x ∈ vis' := by
    intro x hx; rw [h1]; exact List.mem_append_left _ hx
  have hfreshVis : ∀ x ∈ fresh, x ∈ vis' := by
    intro x hx; rw [h1]; exact List.mem_append_right _ hx
  have hLevCov := inv.levCov
  have hfstq' : q'.map Prod.fst = rest.map Prod.fst ++ fresh := by
    rw [h2]; simp [List.map_map, Function.comp_def]
  have hfreshLen : ∀ e ∈ fresh.map (fun n => (n, p ++ [n])), e.2.length = p.length + 1 := by
    intro e he
    obtain ⟨n, -, rfl⟩ := List.mem_map.mp he
    simp
  have hwinHead : ∀ e ∈ rest, e.2.length ≤ p.length + 1 := by
    intro e he
    have := inv.window e (List.mem_cons_of_mem _ he) (v, p) (List.mem_cons_self _ _)
    simpa using this
  have hminHead : ∀ e ∈ rest, p.length ≤ e.2.length := fun e he =>
    inv.head_min e (List.mem_cons_of_mem _ he)
  have hfreshEnt : ∀ n ∈ fresh, IsPath G s n (p ++ [n]) ∧ (p ++ [n]).Nodup ∧
      (∀ z ∈ p ++ [n], z ∈ vis') ∧ n ∈ reachList G s ((p ++ [n]).length - 1) ∧
      ∀ m, n ∈ reachList G s m → (p ++ [n]).length ≤ m + 1 := by
    intro n hn
    obtain ⟨hnadj, hnvis⟩ := h4 n hn
    refine ⟨⟨by simp, ?_, List.getLast?_concat p, ?_⟩, ?_, ?_, ?_, ?_⟩
    · obtain ⟨a, p₁, hap⟩ : ∃ a p₁, p = a :: p₁ := by
        cases p with
        | nil => simp at hplen
        | cons a p₁ => exact ⟨a, p₁, rfl⟩
      have hh := hvpPath.2.1
      rw [hap] at hh ⊢
      simpa using hh
    · rw [List.chain'_append]
      refine ⟨hvpPath.2.2.2, List.chain'_singleton n, ?_⟩
      intro x hx y hy
      simp at hy
      rw [hvpPath.2.2.1] at hx
      simp at hx
      rw [← hy, ← hx]
      exact hnadj
    · rw [List.nodup_append]
      refine ⟨hvpNodup, List.nodup_singleton n, ?_⟩
      intro z hz hzn
      simp at hzn
      rw [hzn] at hz
      exact hnvis (hvpVis n hz)
    · intro z hz
      rcases List.mem_append.mp hz with hz | hz
      · exact hvisSub z (hvpVis z hz)
      · simp at hz
        rw [hz]
        exact hfreshVis n hn
    · have hlev : n ∈ reachList G s (p.length - 1 + 1) := adj_mem_reachList hvpLev hnadj
      have heq : p.length - 1 + 1 = p.length := by omega
      rw [heq] at hlev
      have heq2 : (p ++ [n]).length - 1 = p.length := by simp
      rwa [heq2]
    · intro m hm
      simp only [List.length_append, List.length_cons, List.length_nil]
      by_contra hlt
      push_neg at hlt
      have hmle : m ≤ p.length - 1 := by omega
      have : n ∈ reachList G s (p.length - 1) := reachList_mono hmle hm
      exact hnvis (hLevCov n this)
  refine ⟨?_, ?_, ?_, ?_, ?_, ?_, ?_, ?_, ?_, ?_⟩
  · -- acct
    intro x
    constructor
    · intro hx
      rw [h1] at hx
      rcases List.mem_append.mp hx with hx | hx
      · rcases (inv.acct x).mp hx with hx | ⟨px, hpx⟩
        · exact Or.inl (List.mem_append_left _ hx)
        · rcases List.mem_cons.mp hpx with hpx | hpx
          · left
            have : x = v := congrArg Prod.fst hpx
            rw [this]
            simp
          · right
            exact ⟨px, by rw [h2]; exact List.mem_append_left _ hpx⟩
      · right
        refine ⟨p ++ [x], ?_⟩
        rw [h2]
        refine List.mem_append_right _ ?_
        exact List.mem_map.mpr ⟨x, hx, rfl⟩
    · intro hx
      rcases hx with hx | ⟨px, hpx⟩
      · rcases List.mem_append.mp hx with hx | hx
        · exact hvisSub x ((inv.acct x).mpr (Or.inl hx))
        · simp at hx
          rw [hx]
          exact hvisSub v ((inv.acct v).mpr (Or.inr ⟨p, List.mem_cons_self _ _⟩))
      · rw [h2] at hpx
        rcases List.mem_append.mp hpx with hpx | hpx
        · exact hvisSub x ((inv.acct x).mpr (Or.inr ⟨px, List.mem_cons_of_mem _ hpx⟩))
        · obtain ⟨n, hn, hnx⟩ := List.mem_map.mp hpx
          have : n = x := congrArg Prod.fst hnx
          rw [← this]
          exact hfreshVis n hn
  · -- nodup
    have hgoal : (proc ++ [v] ++ q'.map Prod.fst) =
        (proc ++ (v :: rest.map Prod.fst)) ++ fresh := by
      rw [hfstq']; simp
    have hnn : (proc ++ (v :: rest.map Prod.fst)).Nodup := by
      simpa using inv.nodup
    rw [hgoal, List.nodup_append]
    refine ⟨hnn, h3, ?_⟩
    intro x hx hxf
    have hxvis : x ∈ vis := by
      rcases List.mem_append.mp hx with hx | hx
      · exact (inv.acct x).mpr (Or.inl hx)
      · rcases List.mem_cons.mp hx with hx | hx
        · rw [hx]
          exact (inv.acct v).mpr (Or.inr ⟨p, List.mem_cons_self _ _⟩)
        · obtain ⟨e, he, hex⟩ := List.mem_map.mp hx
          refine (inv.acct x).mpr (Or.inr ⟨e.2, ?_⟩)
          rw [← hex]
          exact List.mem_cons_of_mem _ (by simpa using he)
    exact (h4 x hxf).2 hxvis
  · -- ent
    intro e he
    rw [h2] at he
    rcases List.mem_append.mp he with he | he
    · obtain ⟨e1, e2, e3, e4, e5⟩ := inv.ent e (List.mem_cons_of_mem _ he)
      exact ⟨e1, e2, fun z hz => hvisSub z (e3 z hz), e4, e5⟩
    · obtain ⟨n, hn, rfl⟩ := List.mem_map.mp he
      exact hfreshEnt n hn
  · -- sorted
    rw [h2, List.pairwise_append]
    refine ⟨(List.pairwise_cons.mp inv.sorted).2, ?_, ?_⟩
    · refine pairwise_of_forall_mem fun a ha b hb => ?_
      rw [hfreshLen a ha, hfreshLen b hb]
    · intro a ha b hb
      rw [hfreshLen b hb]
      exact hwinHead a ha
  · -- window
    intro e he e' he'
    rw [h2] at he he'
    rcases List.mem_append.mp he with he | he <;>
      rcases List.mem_append.mp he' with he' | he'
    · exact inv.window e (List.mem_cons_of_mem _ he) e' (List.mem_cons_of_mem _ he')
    · rw [hfreshLen e' he']
      have := hwinHead e he
      omega
    · rw [hfreshLen e he]
      have := hminHead e' he'
      omega
    · rw [hfreshLen e he, hfreshLen e' he']
      omega
  · -- closedProc
    intro w hw
    rcases List.mem_append.mp hw with hw | hw
    · obtain ⟨hw1, hw2⟩ := inv.closedProc w hw
      exact ⟨hw1, fun x hx => hvisSub x (hw2 x hx)⟩
    · simp at hw
      rw [hw]
      refine ⟨fun ht => (h5 t ht) rfl, fun x hx => ?_⟩
      rcases h6 x hx with h | h
      · exact hvisSub x h
      · exact hfreshVis x h
  · -- tfresh
    rw [h1]
    intro ht
    rcases List.mem_append.mp ht with ht | ht
    · exact inv.tfresh ht
    · exact (h5 t (h4 t ht).1) rfl
  · -- headCov
    intro e he m hm x hx
    have hemem : e ∈ q' := List.mem_of_mem_head? (Option.mem_def.mpr he)
    have helen : e.2.length ≤ p.length + 1 := by
      rw [h2] at hemem
      rcases List.mem_append.mp hemem with h' | h'
      · exact hwinHead e h'
      · rw [hfreshLen e h']
    by_cases hc : m + 2 ≤ p.length
    · exact hvisSub x (inv.headCov (v, p) rfl m hc x hx)
    · have hmeq : m = p.length - 1 := by omega
      rw [hmeq] at hx
      exact hvisSub x (hLevCov x hx)
  · -- headT
    intro e he m hm
    have hemem : e ∈ q' := List.mem_of_mem_head? (Option.mem_def.mpr he)
    have helen : e.2.length ≤ p.length + 1 := by
      rw [h2] at hemem
      rcases List.mem_append.mp hemem with h' | h'
      · exact hwinHead e h'
      · rw [hfreshLen e h']
    by_cases hc : m + 2 ≤ p.length
    · exact inv.headT (v, p) rfl m hc
    · have hmeq : m = p.length - 1 := by omega
      rw [hmeq]
      exact inv.levT hst
  · -- smem
    exact hvisSub s inv.smem

theorem isPath_extend {G : Graph V} {s v n : V} {p : List V}
    (hPath : IsPath G s v p) (hadj : n ∈ adj G v) : IsPath G s n (p ++ [n]) := by
  obtain ⟨hne, hh, hl, hc⟩ := hPath
  refine ⟨by simp, ?_, List.getLast?_concat p, ?_⟩
  · obtain ⟨a, p₁, hap⟩ : ∃ a p₁, p = a :: p₁ := by
      cases p with
      | nil => exact absurd rfl hne
      | cons a p₁ => exact ⟨a, p₁, rfl⟩
    rw [hap] at hh ⊢
    simpa using hh
  · rw [List.chain'_append]
    refine ⟨hc, List.chain'_singleton n, ?_⟩
    intro x hx y hy
    simp at hy
    rw [hl] at hx
    simp at hx
    rw [← hy, ← hx]
    exact hadj

theorem nodup_extend {p : List V} {n : V} {vis : List V} (hnd : p.Nodup)
    (hsub : ∀ z ∈ p, z ∈ vis) (hnv : n ∉ vis) : (p ++ [n]).Nodup := by
  rw [List.nodup_append]
  refine ⟨hnd, List.nodup_singleton n, fun z hz hzn => ?_⟩
  simp at hzn
  rw [hzn] at hz
  exact hnv (hsub n hz)

/-- The invariant holds at the initial state of the shortest-path loop. -/
theorem spInv_init (G : Graph V) {s t : V} (hst : s ≠ t) :
    SpInv G s t [(s, [s])] [s] [] := by
  refine ⟨?_, ?_, ?_, ?_, ?_, ?_, ?_, ?_, ?_, ?_⟩
  · intro x
    constructor
    · intro hx
      simp at hx
      exact Or.inr ⟨[s], by simp [hx]⟩
    · intro hx
      rcases hx with hx | ⟨p, hp⟩
      · simp at hx
      · simp at hp
        simp [hp.1]
  · simp
  · intro e he
    simp at he
    rw [he]
    refine ⟨⟨by simp, by simp, by simp, List.chain'_singleton s⟩, by simp, by simp, ?_, ?_⟩
    · simp [reachList]
    · intro m _
      simp
  · simp
  · intro e he e' he'
    simp at he he'
    rw [he, he']
    simp
  · intro w hw
    simp at hw
  · intro ht
    simp at ht
    exact hst ht.symm
  · intro e he m hm
    simp at he
    rw [← he] at hm
    have hm1 : m + 2 ≤ 1 := by simpa using hm
    omega
  · intro e he m hm
    simp at he
    rw [← he] at hm
    have hm1 : m + 2 ≤ 1 := by simpa using hm
    omega
  · simp

/-- Full functional specification of the shortest-path loop: an early return
is a shortest, duplicate-free path from `s` to `t`; exhaustion means the
visited set is adjacency-closed and excludes `t`. -/
theorem spAux_spec (G : Graph V) (s t : V) (hst : s ≠ t) :
    ∀ (fuel : Nat) (q : List (V × List V)) (vis proc : List V) {res : Option (List V)},
    spAux G t fuel q vis = some res → SpInv G s t q vis proc →
    (∀ r, res = some r → IsPath G s t r ∧ r.Nodup ∧
        ∀ m, t ∈ reachList G s m → r.length ≤ m + 1) ∧
    (res = none → ∃ S : List V, (∀ y ∈ S, ∀ x ∈ adj G y, x ∈ S) ∧ s ∈ S ∧ t ∉ S) := by
  intro fuel
  induction fuel with
  | zero =>
      intro q vis proc res h inv
      cases q with
      | nil =>
          rw [spAux_nil] at h
          have hres : res = none := by
            simpa using h.symm
          subst hres
          refine ⟨fun r hr => by simp at hr, fun _ => ⟨vis, ?_, inv.smem, inv.tfresh⟩⟩
          intro y hy x hx
          rcases (inv.acct y).mp hy with hy' | ⟨py, hpy⟩
          · exact (inv.closedProc y hy').2 x hx
          · simp at hpy
      | cons e q' => simp [spAux] at h
  | succ f ih =>
      intro q vis proc res h inv
      cases q with
      | nil =>
          rw [spAux_nil] at h
          have hres : res = none := by
            simpa using h.symm
          subst hres
          refine ⟨fun r hr => by simp at hr, fun _ => ⟨vis, ?_, inv.smem, inv.tfresh⟩⟩
          intro y hy x hx
          rcases (inv.acct y).mp hy with hy' | ⟨py, hpy⟩
          · exact (inv.closedProc y hy').2 x hx
          · simp at hpy
      | cons e q' =>
          obtain ⟨v, p⟩ := e
          rw [spAux_cons] at h
          cases hscan : spScan t p (adj G v) vis q' with
          | error found =>
              rw [hscan] at h
              have hres : res = some found := by
                simpa using h.symm
              subst hres
              obtain ⟨hfound, htadj⟩ := spScan_error hscan
              obtain ⟨hvpPath, hvpNodup, hvpVis, hvpLev, hvpMin⟩ :=
                inv.ent (v, p) (List.mem_cons_self _ _)
              have hplen : 1 ≤ p.length := List.length_pos.mpr hvpPath.1
              refine ⟨fun r hr => ?_, fun hno => by simp at hno⟩
              have hrf : r = p ++ [t] := by
                rw [← hfound]
                exact (Option.some_inj.mp hr).symm
              subst hrf
              refine ⟨isPath_extend hvpPath htadj,
                nodup_extend hvpNodup hvpVis inv.tfresh, ?_⟩
              intro m hm
              simp only [List.length_append, List.length_cons, List.length_nil]
              by_contra hlt
              push_neg at hlt
              have hmle : m ≤ p.length - 1 := by omega
              exact (inv.levT hst) (reachList_mono hmle hm)
          | ok vq =>
              obtain ⟨vis', q''⟩ := vq
              rw [hscan] at h
              exact ih q'' vis' (proc ++ [v]) h (inv.step hst hscan)

/-- If `bfs_shortest_path` returns a path, it is a duplicate-free walk from
start to target whose length is within the BFS-depth bound of the target. -/
theorem shortest_path_some_spec {G : Graph V} {s t : V} {r : List V}
    (h : bfs_shortest_path G s t = some r) :
    IsPath G s t r ∧ r.Nodup ∧ ∀ m, t ∈ reachList G s m → r.length ≤ m + 1 := by
  rw [bfs_shortest_path] at h
  by_cases hkey : s ∈ keys G ∧ t ∈ keys G
  swap
  · rw [if_neg hkey] at h
    simp at h
  rw [if_pos hkey] at h
  by_cases hst : s = t
  · rw [if_pos hst] at h
    simp at h
    subst hst
    rw [← h]
    refine ⟨⟨by simp, by simp, by simp, List.chain'_singleton s⟩, by simp, ?_⟩
    intro m _
    simp
  · rw [if_neg hst] at h
    have htot := spAux_total G t (stdFuel G) [(s, [s])] [s]
      (by simpa using phi_le_stdFuel G s [s])
    obtain ⟨res, hres⟩ := Option.isSome_iff_exists.mp htot
    rw [hres] at h
    simp at h
    exact (spAux_spec G s t hst (stdFuel G) [(s, [s])] [s] [] hres
      (spInv_init G hst)).1 r h

theorem shortest_path_none_unreachable {G : Graph V} {s t : V}
    (hkey : s ∈ keys G ∧ t ∈ keys G) (hst : s ≠ t)
    (h : bfs_shortest_path G s t = none) : ¬Reachable G s t := by
  intro hreach
  rw [bfs_shortest_path, if_pos hkey, if_neg hst] at h
  have htot := spAux_total G t (stdFuel G) [(s, [s])] [s]
    (by simpa using phi_le_stdFuel G s [s])
  obtain ⟨res, hres⟩ := Option.isSome_iff_exists.mp htot
  rw [hres] at h
  simp at h
  obtain ⟨S, hcl, hsm, htf⟩ := (spAux_spec G s t hst (stdFuel G) [(s, [s])] [s] []
    hres (spInv_init G hst)).2 h
  exact htf (reachable_subset_closed hcl hsm t hreach)

/-- C3: a returned shortest path has pairwise-distinct vertices and minimum
length among all start-to-target walks of the graph. -/
theorem shortest_path_minimal :
    ∀ (V : Type) [DecidableEq V] (G : Graph V) (s t : V) (r : List V),
      bfs_shortest_path G s t = some r →
      r.Nodup ∧ ∀ q, IsPath G s t q → r.length ≤ q.length := by
  intro V _ G s t r h
  obtain ⟨hpath, hnd, hmin⟩ := shortest_path_some_spec h
  refine ⟨hnd, fun q hq => ?_⟩
  have hq1 : 1 ≤ q.length := List.length_pos.mpr hq.1
  have := hmin (q.length - 1) (isPath_getLast_mem_reachList hq)
  omega

/-- Witness for C3: concrete scenario 2, the returned path `[A,C,F]`. -/
theorem shortest_path_minimal_witness :
    bfs_shortest_path exGraph "A" "F" = some ["A", "C", "F"] ∧
    (["A", "C", "F"] : List String).Nodup ∧
    ∀ q, IsPath exGraph "A" "F" q →
      (["A", "C", "F"] : List String).length ≤ q.length :=
  ⟨rfl, shortest_path_minimal String exGraph "A" "F" ["A", "C", "F"] rfl⟩

theorem chain_dropLast_next {R : V → V → Prop} :
    ∀ {l : List V}, List.Chain' R l → ∀ a ∈ l.dropLast, ∃ b, R a b := by
  intro l
  induction l with
  | nil => intro _ a ha; simp at ha
  | cons x l' ih =>
      intro hc a ha
      cases l' with
      | nil => simp at ha
      | cons y l'' =>
          rw [List.dropLast_cons_of_ne_nil (by simp)] at ha
          obtain ⟨hxy, hc'⟩ := List.chain'_cons.mp hc
          rcases List.mem_cons.mp ha with ha | ha
          · exact ⟨y, by rw [ha]; exact hxy⟩
          · exact ih hc' a ha

/-- C10: a returned path is a genuine walk of the graph: nonempty, from
start to target, consecutive vertices joined by listed edges, and every
vertex but possibly the last is a graph key. -/
theorem shortest_path_is_walk :
    ∀ (V : Type) [DecidableEq V] (G : Graph V) (s t : V) (r : List V),
      bfs_shortest_path G s t = some r →
      r ≠ [] ∧ r.head? = some s ∧ r.getLast? = some t ∧
        List.Chain' (Edge G) r ∧ ∀ a ∈ r.dropLast, a ∈ keys G := by
  intro V _ G s t r h
  obtain ⟨⟨h1, h2, h3, h4⟩, -, -⟩ := shortest_path_some_spec h
  refine ⟨h1, h2, h3, h4, ?_⟩
  intro a ha
  obtain ⟨b, hb⟩ := chain_dropLast_next h4 a ha
  refine mem_keys_of_adj_ne_nil (fun hnil => ?_)
  rw [Edge, hnil] at hb
  simp at hb

/-- Witness for C10 at scenario 2. -/
theorem shortest_path_is_walk_witness :
    (["A", "C", "F"] : List String) ≠ [] ∧
    (["A", "C", "F"] : List String).head? = some "A" ∧
    (["A", "C", "F"] : List String).getLast? = some "F" ∧
    List.Chain' (Edge exGraph) ["A", "C", "F"] ∧
    ∀ a ∈ (["A", "C", "F"] : List String).dropLast, a ∈ keys exGraph :=
  shortest_path_is_walk String exGraph "A" "F" ["A", "C", "F"] rfl

/-- C4: the absence marker is returned exactly when the target is
unreachable or either endpoint is missing from the graph keys; no error is
possible (the embedded function is total). -/
theorem shortest_path_none_iff :
    ∀ (V : Type) [DecidableEq V] (G : Graph V) (s t : V),
      bfs_shortest_path G s t = none ↔
        ¬(s ∈ keys G ∧ t ∈ keys G ∧ Reachable G s t) := by
  intro V _ G s t
  constructor
  · intro h
    rintro ⟨hs, ht, hreach⟩
    by_cases hst : s = t
    · rw [bfs_shortest_path, if_pos ⟨hs, ht⟩, if_pos hst] at h
      simp at h
    · exact shortest_path_none_unreachable ⟨hs, ht⟩ hst h hreach
  · intro h
    by_cases hkey : s ∈ keys G ∧ t ∈ keys G
    swap
    · rw [bfs_shortest_path, if_neg hkey]
    by_cases hst : s = t
    · exfalso
      refine h ⟨hkey.1, hkey.2, ?_⟩
      rw [← hst]
      exact Relation.ReflTransGen.refl
    · rw [bfs_shortest_path, if_pos hkey, if_neg hst]
      have htot := spAux_total G t (stdFuel G) [(s, [s])] [s]
        (by simpa using phi_le_stdFuel G s [s])
      obtain ⟨res, hres⟩ := Option.isSome_iff_exists.mp htot
      rw [hres]
      cases res with
      | none => rfl
      | some r =>
          exfalso
          have hspec := (spAux_spec G s t hst (stdFuel G) [(s, [s])] [s] []
            hres (spInv_init G hst)).1 r rfl
          exact h ⟨hkey.1, hkey.2, isPath_reachable hspec.1⟩

/-- Witness for C4: concrete scenario 5, path query to the absent vertex
`Z` yields the absence marker without error. -/
theorem shortest_path_none_iff_witness :
    bfs_shortest_path exGraph "A" "Z" = none :=
  (shortest_path_none_iff String exGraph "A" "Z").mpr
    (fun hc => absurd hc.2.1 (by decide))

/-! ### Lemmas about the connected-components loop -/

theorem componentsAux_total (G : Graph V) : ∀ (ks vis : List V),
    (componentsAux G ks vis).isSome := by
  intro ks
  induction ks with
  | nil => intro vis; rfl
  | cons k ks ih =>
      intro vis
      rw [componentsAux]
      by_cases hk : k ∈ vis
      · rw [if_pos hk]
        exact ih vis
      · rw [if_neg hk]
        have htot := bfsAux_total G (stdFuel G) [k] (vis ++ [k]) []
          (phi_le_stdFuel G k (vis ++ [k]))
        obtain ⟨⟨comp, vis'⟩, hc⟩ := Option.isSome_iff_exists.mp htot
        rw [hc]
        obtain ⟨cs, hcs⟩ := Option.isSome_iff_exists.mp (ih vis')
        simp [hcs]

theorem componentsAux_spec (G : Graph V) : ∀ (ks vis : List V) {cs : List (List V)},
    componentsAux G ks vis = some cs →
    (∀ k ∈ ks, k ∈ vis ∨ k ∈ cs.flatten) ∧
    cs.flatten.Nodup ∧
    (∀ x ∈ cs.flatten, x ∉ vis) ∧
    (∀ x ∈ cs.flatten, x ∈ ks ∨ x ∈ adjTargets G) := by
  intro ks
  induction ks with
  | nil =>
      intro vis cs h
      rw [componentsAux] at h
      simp at h
      subst h
      exact ⟨by simp, by simp, by simp, by simp⟩
  | cons k ks ih =>
      intro vis cs h
      rw [componentsAux] at h
      by_cases hk : k ∈ vis
      · rw [if_pos hk] at h
        obtain ⟨ha, hb, hc, hd⟩ := ih vis h
        refine ⟨?_, hb, hc, ?_⟩
        · intro k' hk'
          rcases List.mem_cons.mp hk' with hk' | hk'
          · rw [hk']; exact Or.inl hk
          · exact ha k' hk'
        · intro x hx
          rcases hd x hx with h' | h'
          · exact Or.inl (List.mem_cons_of_mem _ h')
          · exact Or.inr h'
      · rw [if_neg hk] at h
        cases hb : bfsAux G (stdFuel G) [k] (vis ++ [k]) [] with
        | none => rw [hb] at h; simp at h
        | some cv =>
            obtain ⟨comp, vis'⟩ := cv
            rw [hb] at h
            simp at h
            obtain ⟨cs', hcs', rfl⟩ := h
            obtain ⟨tail, ht1, ht2, ht3, ht4, ht5⟩ := bfsAux_run_decomp G _ _ _ hb
            obtain ⟨ha, hnd, hfr, htg⟩ := ih vis' hcs'
            have hcomp : comp = k :: tail := by simpa using ht1
            have hkvis' : k ∈ vis' := by
              rw [ht2]
              simp
            have htailvis' : ∀ x ∈ tail, x ∈ vis' := by
              intro x hx
              rw [ht2]
              exact List.mem_append_right _ hx
            have hcompNodup : comp.Nodup := by
              rw [hcomp]
              refine List.nodup_cons.mpr ⟨fun hmem => ?_, ht3⟩
              have := ht4 k hmem
              simp at this
            refine ⟨?_, ?_, ?_, ?_⟩
            · intro k' hk'
              rcases List.mem_cons.mp hk' with hk' | hk'
              · right
                rw [List.flatten_cons, hcomp]
                rw [hk']
                exact List.mem_append_left _ (List.mem_cons_self _ _)
              · rcases ha k' hk' with h' | h'
                · rw [ht2] at h'
                  rcases List.mem_append.mp h' with h' | h'
                  · rcases List.mem_append.mp h' with h' | h'
                    · exact Or.inl h'
                    · simp at h'
                      right
                      rw [List.flatten_cons, hcomp, h']
                      exact List.mem_append_left _ (List.mem_cons_self _ _)
                  · right
                    rw [List.flatten_cons, hcomp]
                    exact List.mem_append_left _ (List.mem_cons_of_mem _ h')
                · right
                  rw [List.flatten_cons]
                  exact List.mem_append_right _ h'
            · rw [List.flatten_cons, List.nodup_append]
              refine ⟨hcompNodup, hnd, ?_⟩
              intro x hx hx'
              have hxvis' : x ∈ vis' := by
                rw [hcomp] at hx
                rcases List.mem_cons.mp hx with hx | hx
                · rw [hx]; exact hkvis'
                · exact htailvis' x hx
              exact (hfr x hx') hxvis'
            · intro x hx
              rw [List.flatten_cons] at hx
              rcases List.mem_append.mp hx with hx | hx
              · rw [hcomp] at hx
                rcases List.mem_cons.mp hx with hx | hx
                · rw [hx]; exact hk
                · intro hxv
                  exact (ht4 x hx) (List.mem_append_left _ hxv)
              · intro hxv
                exact (hfr x hx) (by rw [ht2]; exact List.mem_append_left _ (List.mem_append_left _ hxv))
            · intro x hx
              rw [List.flatten_cons] at hx
              rcases List.mem_append.mp hx with hx | hx
              · rw [hcomp] at hx
                rcases List.mem_cons.mp hx with hx | hx
                · rw [hx]
                  exact Or.inl (List.mem_cons_self _ _)
                · exact Or.inr (ht5 x hx)
              · rcases htg x hx with h' | h'
                · exact Or.inl (List.mem_cons_of_mem _ h')
                · exact Or.inr h'

theorem countP_eq_one_of_flatten_nodup {k : V} : ∀ {cs : List (List V)},
    cs.flatten.Nodup → k ∈ cs.flatten →
    cs.countP (fun c => decide (k ∈ c)) = 1 := by
  intro cs
  induction cs with
  | nil => intro _ h; simp at h
  | cons c cs' ih =>
      intro hnd hk
      rw [List.flatten_cons] at hnd hk
      rw [List.countP_cons]
      rw [List.nodup_append] at hnd
      obtain ⟨h1, h2, h3⟩ := hnd
      rcases List.mem_append.mp hk with hk | hk
      · have hzero : cs'.countP (fun c' => decide (k ∈ c')) = 0 := by
          rw [List.countP_eq_zero]
          intro c' hc'
          simp
          intro hkc'
          exact h3 hk (List.mem_flatten.mpr ⟨c', hc', hkc'⟩)
        rw [hzero]
        simp [hk]
      · have hknc : k ∉ c := fun hkc => h3 hkc hk
        rw [ih h2 hk]
        simp [hknc]

/-- C2 counterexample: on the malformed graph `{A:[B]}` the only component
is `[A, B]`, so the union of all components strictly contains the key set —
the claimed equality with the key set fails. -/
theorem components_union_counterexample :
    "B" ∈ (bfs_connected_components badGraph).flatten ∧ "B" ∉ keys badGraph := by
  constructor
  · decide
  · decide

/-- C2 (amended): `bfs_connected_components` covers every key exactly once
and never repeats a vertex across (or within) components; the union of all
components contains the key set and can additionally contain adjacency
targets that are not keys. -/
theorem components_partition :
    ∀ (V : Type) [DecidableEq V] (G : Graph V),
      (∀ k ∈ keys G, k ∈ (bfs_connected_components G).flatten ∧
        (bfs_connected_components G).countP (fun c => decide (k ∈ c)) = 1) ∧
      (bfs_connected_components G).flatten.Nodup ∧
      (∀ x ∈ (bfs_connected_components G).flatten, x ∈ keys G ∨ x ∈ adjTargets G) := by
  intro V _ G
  obtain ⟨cs, hcs⟩ := Option.isSome_iff_exists.mp (componentsAux_total G (keys G) [])
  have hbc : bfs_connected_components G = cs := by
    rw [bfs_connected_components, hcs]
    rfl
  obtain ⟨ha, hb, -, hd⟩ := componentsAux_spec G (keys G) [] hcs
  rw [hbc]
  have hmem : ∀ k ∈ keys G, k ∈ cs.flatten := by
    intro k hk
    rcases ha k hk with h | h
    · simp at h
    · exact h
  exact ⟨fun k hk => ⟨hmem k hk, countP_eq_one_of_flatten_nodup hb (hmem k hk)⟩, hb, hd⟩

/-! ### Components: equivalence with the spec-side description -/

theorem newNeighbors_congr (V₀ : List V) : ∀ (l visP visA : List V),
    (∀ x ∈ V₀, x ∈ visA) →
    (∀ x, x ∉ V₀ → (x ∈ visP ↔ x ∈ visA)) →
    newNeighbors visA l = (newNeighbors visP l).filter (fun x => !decide (x ∈ V₀)) := by
  intro l
  induction l with
  | nil => intro visP visA h1 h2; rfl
  | cons n ns ih =>
      intro visP visA h1 h2
      by_cases hn0 : n ∈ V₀
      · have hnA : n ∈ visA := h1 n hn0
        rw [newNeighbors, if_pos hnA]
        by_cases hnP : n ∈ visP
        · rw [newNeighbors, if_pos hnP]
          exact ih visP visA h1 h2
        · rw [newNeighbors, if_neg hnP, List.filter_cons]
          have : (!decide (n ∈ V₀)) = false := by simp [hn0]
          rw [this]
          simp only [Bool.false_eq_true, if_false]
          refine ih (visP ++ [n]) visA h1 ?_
          intro x hx0
          rw [List.mem_append]
          constructor
          · rintro (hx | hx)
            · exact (h2 x hx0).mp hx
            · simp at hx
              rw [hx] at hx0
              exact absurd hn0 hx0
          · intro hx
            exact Or.inl ((h2 x hx0).mpr hx)
      · have hiff := h2 n hn0
        by_cases hnP : n ∈ visP
        · have hnA : n ∈ visA := hiff.mp hnP
          rw [newNeighbors, if_pos hnA, newNeighbors, if_pos hnP]
          exact ih visP visA h1 h2
        · have hnA : n ∉ visA := fun h => hnP (hiff.mpr h)
          rw [newNeighbors, if_neg hnA, newNeighbors, if_neg hnP, List.filter_cons]
          have : (!decide (n ∈ V₀)) = true := by simp [hn0]
          rw [this]
          simp only [if_true]
          congr 1
          refine ih (visP ++ [n]) (visA ++ [n]) ?_ ?_
          · intro x hx
            exact List.mem_append_left _ (h1 x hx)
          · intro x hx0
            rw [List.mem_append, List.mem_append]
            constructor
            · rintro (hx | hx)
              · exact Or.inl ((h2 x hx0).mp hx)
              · exact Or.inr hx
            · rintro (hx | hx)
              · exact Or.inl ((h2 x hx0).mpr hx)
              · exact Or.inr hx

/-- Simulation: a BFS run whose initial visited list is enlarged by an
adjacency-closed set `V₀` produces exactly the original visitation order
with the `V₀` vertices removed. -/
theorem bfsAux_filter (G : Graph V) (V₀ : List V)
    (hcl : ∀ x ∈ V₀, ∀ y ∈ adj G x, y ∈ V₀) :
    ∀ (f : Nat) (q visP visA : List V) {r vfP : List V},
    bfsAux G f q visP [] = some (r, vfP) →
    (∀ x ∈ V₀, x ∈ visA) →
    (∀ x, x ∉ V₀ → (x ∈ visP ↔ x ∈ visA)) →
    ∃ f' vfA, bfsAux G f' (q.filter (fun x => !decide (x ∈ V₀))) visA []
        = some (r.filter (fun x => !decide (x ∈ V₀)), vfA) := by
  intro f
  induction f with
  | zero =>
      intro q visP visA r vfP h h1 h2
      cases q with
      | nil =>
          rw [bfsAux_nil] at h
          simp at h
          obtain ⟨h3, -⟩ := h
          subst h3
          exact ⟨0, visA, bfsAux_nil G 0 visA []⟩
      | cons v q' => simp [bfsAux] at h
  | succ g ih =>
      intro q visP visA r vfP h h1 h2
      cases q with
      | nil =>
          rw [bfsAux_nil] at h
          simp at h
          obtain ⟨h3, -⟩ := h
          subst h3
          exact ⟨0, visA, bfsAux_nil G 0 visA []⟩
      | cons v q' =>
          rw [bfsAux_cons, bfsAux_acc] at h
          set nsP := newNeighbors visP (adj G v) with hnsP
          cases hin : bfsAux G g (q' ++ nsP) (visP ++ nsP) [] with
          | none => rw [hin] at h; simp at h
          | some rv =>
              obtain ⟨r₁, vf₁⟩ := rv
              rw [hin] at h
              simp at h
              obtain ⟨hr, hvf⟩ := h
              by_cases hv0 : v ∈ V₀
              · have hns0 : ∀ x ∈ nsP, x ∈ V₀ := fun x hx =>
                  hcl v hv0 x (newNeighbors_sub hx).1
                have h2' : ∀ x, x ∉ V₀ → (x ∈ visP ++ nsP ↔ x ∈ visA) := by
                  intro x hx0
                  rw [List.mem_append]
                  constructor
                  · rintro (hx | hx)
                    · exact (h2 x hx0).mp hx
                    · exact absurd (hns0 x hx) hx0
                  · intro hx
                    exact Or.inl ((h2 x hx0).mpr hx)
                obtain ⟨f', vfA, hA⟩ := ih (q' ++ nsP) (visP ++ nsP) visA hin h1 h2'
                refine ⟨f', vfA, ?_⟩
                have hnsfil : nsP.filter (fun x => !decide (x ∈ V₀)) = [] := by
                  rw [List.filter_eq_nil_iff]
                  intro x hx
                  simp [hns0 x hx]
                have hfq : (q' ++ nsP).filter (fun x => !decide (x ∈ V₀)) =
                    q'.filter (fun x => !decide (x ∈ V₀)) := by
                  rw [List.filter_append, hnsfil, List.append_nil]
                rw [hfq] at hA
                have hfv : (v :: q').filter (fun x => !decide (x ∈ V₀)) =
                    q'.filter (fun x => !decide (x ∈ V₀)) := by
                  rw [List.filter_cons]
                  simp [hv0]
                have hfr : r.filter (fun x => !decide (x ∈ V₀)) =
                    r₁.filter (fun x => !decide (x ∈ V₀)) := by
                  rw [← hr, List.filter_cons]
                  simp [hv0]
                rw [hfv, hfr]
                exact hA
              · set nsA := newNeighbors visA (adj G v) with hnsA
                have hnseq : nsA = nsP.filter (fun x => !decide (x ∈ V₀)) :=
                  newNeighbors_congr V₀ (adj G v) visP visA h1 h2
                have h1' : ∀ x ∈ V₀, x ∈ visA ++ nsA := fun x hx =>
                  List.mem_append_left _ (h1 x hx)
                have h2' : ∀ x, x ∉ V₀ → (x ∈ visP ++ nsP ↔ x ∈ visA ++ nsA) := by
                  intro x hx0
                  rw [List.mem_append, List.mem_append]
                  have hns : x ∈ nsP ↔ x ∈ nsA := by
                    rw [hnseq, List.mem_filter]
                    simp [hx0]
                  constructor
                  · rintro (hx | hx)
                    · exact Or.inl ((h2 x hx0).mp hx)
                    · exact Or.inr (hns.mp hx)
                  · rintro (hx | hx)
                    · exact Or.inl ((h2 x hx0).mpr hx)
                    · exact Or.inr (hns.mpr hx)
                obtain ⟨f', vfA, hA⟩ := ih (q' ++ nsP) (visP ++ nsP) (visA ++ nsA) hin h1' h2'
                refine ⟨f' + 1, vfA, ?_⟩
                have hfv : (v :: q').filter (fun x => !decide (x ∈ V₀)) =
                    v :: q'.filter (fun x => !decide (x ∈ V₀)) := by
                  rw [List.filter_cons]
                  simp [hv0]
                have hfq : (q' ++ nsP).filter (fun x => !decide (x ∈ V₀)) =
                    q'.filter (fun x => !decide (x ∈ V₀)) ++ nsA := by
                  rw [List.filter_append, ← hnseq]
                rw [hfq] at hA
                rw [hfv, bfsAux_cons, bfsAux_acc, ← hnsA, hA]
                simp
                rw [← hr, List.filter_cons]
                simp [hv0]

theorem componentsAux_eq_csAux (G : Graph V) : ∀ (ks vis : List V),
    (∀ y ∈ vis, ∀ x ∈ adj G y, x ∈ vis) →
    componentsAux G ks vis = some (csAux G ks vis) := by
  intro ks
  induction ks with
  | nil => intro vis _; rfl
  | cons k ks ih =>
      intro vis hcl
      by_cases hk : k ∈ vis
      · rw [componentsAux, csAux, if_pos hk, if_pos hk]
        exact ih vis hcl
      · obtain ⟨⟨comp, vis'⟩, hb⟩ := Option.isSome_iff_exists.mp
          (bfsAux_total G (stdFuel G) [k] (vis ++ [k]) [] (phi_le_stdFuel G k (vis ++ [k])))
        have hstep : componentsAux G (k :: ks) vis =
            (componentsAux G ks vis').map (comp :: ·) := by
          rw [componentsAux, if_neg hk, hb]
        have hsim := bfsAux_filter G vis hcl (stdFuel G) [k] [k] (vis ++ [k])
          (bfsOrder_run G k) (fun x hx => List.mem_append_left _ hx) ?hrel
        case hrel =>
          intro x hx0
          constructor
          · intro hx
            simp at hx
            rw [hx]
            simp
          · intro hx
            rcases List.mem_append.mp hx with hx | hx
            · exact absurd hx hx0
            · exact hx
        obtain ⟨f', vfA, hA⟩ := hsim
        have hkfil : ([k] : List V).filter (fun x => !decide (x ∈ vis)) = [k] := by
          simp [hk]
        rw [hkfil] at hA
        have hagree := bfsAux_agree hb hA
        have hcomp : comp = (bfsOrder G k).filter (fun x => !decide (x ∈ vis)) :=
          congrArg Prod.fst hagree
        obtain ⟨tail, ht1, ht2, -, -, -⟩ := bfsAux_run_decomp G _ _ _ hb
        have hvis' : vis' = vis ++ comp := by
          rw [ht2, ht1]
          simp
        have hcl' : ∀ y ∈ vis', ∀ x ∈ adj G y, x ∈ vis' := by
          refine bfsAux_closed G _ _ _ _ hb ?_
          intro y hy
          rcases List.mem_append.mp hy with hy | hy
          · right
            intro x hx
            exact List.mem_append_left _ (hcl y hy x hx)
          · exact Or.inl hy
        rw [hstep, ih vis' hcl', csAux, if_neg hk]
        show some (comp :: csAux G ks vis') = _
        rw [hvis', hcomp]

/-- Every component produced by the loop starts with its root: a key that
was unvisited when scanned; roots with empty adjacency yield singletons. -/
theorem componentsAux_heads (G : Graph V) : ∀ (ks vis : List V) {cs : List (List V)},
    componentsAux G ks vis = some cs →
    ∀ c ∈ cs, ∃ root tail, c = root :: tail ∧ root ∈ ks ∧ root ∉ vis ∧
      (adj G root = [] → tail = []) := by
  intro ks
  induction ks with
  | nil =>
      intro vis cs h c hc
      rw [componentsAux] at h
      simp at h
      subst h
      simp at hc
  | cons k ks ih =>
      intro vis cs h c hc
      rw [componentsAux] at h
      by_cases hk : k ∈ vis
      · rw [if_pos hk] at h
        obtain ⟨root, tail, e1, e2, e3, e4⟩ := ih vis h c hc
        exact ⟨root, tail, e1, List.mem_cons_of_mem _ e2, e3, e4⟩
      · rw [if_neg hk] at h
        cases hb : bfsAux G (stdFuel G) [k] (vis ++ [k]) [] with
        | none => rw [hb] at h; simp at h
        | some cv =>
            obtain ⟨comp, vis'⟩ := cv
            rw [hb] at h
            simp at h
            obtain ⟨cs', hcs', rfl⟩ := h
            rcases List.mem_cons.mp hc with hc | hc
            · obtain ⟨tail, ht1, -, -, -, -⟩ := bfsAux_run_decomp G _ _ _ hb
              have hcomp : comp = k :: tail := by simpa using ht1
              refine ⟨k, tail, by rw [hc, hcomp], List.mem_cons_self _ _, hk, ?_⟩
              intro hadj
              obtain ⟨m, hm⟩ : ∃ m, stdFuel G = m + 1 := ⟨(univList G).length + 1, rfl⟩
              have hb2 : ∃ vv, bfsAux G (stdFuel G) [k] (vis ++ [k]) [] =
                  some ([k], vv) := by
                refine ⟨(vis ++ [k]) ++ newNeighbors (vis ++ [k]) (adj G k), ?_⟩
                rw [hm, bfsAux_cons, hadj]
                exact bfsAux_nil G m ((vis ++ [k]) ++ newNeighbors (vis ++ [k]) []) [k]
              obtain ⟨vv, hb2⟩ := hb2
              have hck : comp = [k] := congrArg Prod.fst (bfsAux_agree hb hb2)
              rw [hck] at hcomp
              simpa using hcomp.symm
            · obtain ⟨root, tail, e1, e2, e3, e4⟩ := ih vis' hcs' c hc
              refine ⟨root, tail, e1, List.mem_cons_of_mem _ e2, fun hrv => e3 ?_, e4⟩
              obtain ⟨tl, -, ht2, -, -, -⟩ := bfsAux_run_decomp G _ _ _ hb
              rw [ht2]
              exact List.mem_append_left _ (List.mem_append_left _ hrv)

/-- Witness for C2 at the scenario-3 graph and key `A`. -/
theorem components_partition_witness :
    "A" ∈ keys exGraph2 ∧
    ("A" ∈ (bfs_connected_components exGraph2).flatten ∧
      (bfs_connected_components exGraph2).countP (fun c => decide ("A" ∈ c)) = 1) ∧
    (bfs_connected_components exGraph2).flatten.Nodup :=
  ⟨by decide, (components_partition String exGraph2).1 "A" (by decide),
   (components_partition String exGraph2).2.1⟩

/-- C6 counterexample: on `{A:[F], F:[]}` the key `F` has an empty adjacency
list yet does not form a singleton component — it is swept into `A`'s
component, so the claimed unconditional singleton rule is false. -/
theorem components_singleton_counterexample :
    "F" ∈ keys cexGraph ∧ adj cexGraph "F" = [] ∧
    bfs_connected_components cexGraph = [["A", "F"]] ∧
    ["F"] ∉ bfs_connected_components cexGraph := by
  refine ⟨by decide, by decide, by decide, by decide⟩

/-- C6 (amended): the component list equals the spec-side description
(components in root scanning order, each component the plain BFS visitation
order from its root restricted to vertices not in earlier components); a key
with empty adjacency list that becomes a root yields the singleton
component containing just itself (it need not be a root when an earlier
traversal already reached it); on the scenario-3 graph the result is
exactly `[[A,B,C],[D,E],[F]]`. -/
theorem components_order :
    (∀ (V : Type) [DecidableEq V] (G : Graph V),
      bfs_connected_components G = componentsSpec G ∧
      ∀ k ∈ keys G, adj G k = [] →
        ∃ c ∈ bfs_connected_components G, k ∈ c ∧
          (c.head? = some k → c = [k])) ∧
    bfs_connected_components exGraph2 = [["A", "B", "C"], ["D", "E"], ["F"]] := by
  constructor
  · intro V _ G
    have heq : bfs_connected_components G = componentsSpec G := by
      rw [bfs_connected_components, componentsSpec,
        componentsAux_eq_csAux G (keys G) [] (by simp)]
      rfl
    refine ⟨heq, fun k hk hadj => ?_⟩
    obtain ⟨cs, hcs⟩ := Option.isSome_iff_exists.mp (componentsAux_total G (keys G) [])
    have hbc : bfs_connected_components G = cs := by
      rw [bfs_connected_components, hcs]
      rfl
    obtain ⟨ha, hnd, -, -⟩ := componentsAux_spec G (keys G) [] hcs
    have hkmem : k ∈ cs.flatten := by
      rcases ha k hk with h | h
      · simp at h
      · exact h
    obtain ⟨c, hc, hkc⟩ := List.mem_flatten.mp hkmem
    refine ⟨c, by rw [hbc]; exact hc, hkc, fun hhead => ?_⟩
    obtain ⟨root, tail, e1, -, -, e4⟩ := componentsAux_heads G (keys G) [] hcs c hc
    have hroot : root = k := by
      rw [e1] at hhead
      simpa using hhead
    have htail : tail = [] := by
      rw [hroot] at e4
      exact e4 hadj
    rw [e1, hroot, htail]
  · decide

/-- Witness for C6 at the scenario-3 graph: `F` is an empty-adjacency key
and the amended singleton rule applies to its component. -/
theorem components_order_witness :
    "F" ∈ keys exGraph2 ∧ adj exGraph2 "F" = [] ∧
    bfs_connected_components exGraph2 = componentsSpec exGraph2 ∧
    ∃ c ∈ bfs_connected_components exGraph2, "F" ∈ c ∧
      (c.head? = some "F" → c = ["F"]) :=
  ⟨by decide, by decide, (components_order.1 String exGraph2).1,
   (components_order.1 String exGraph2).2 "F" (by decide) (by decide)⟩

/-- C8: malformed graphs never raise: a vertex without an adjacency entry of
its own contributes zero neighbors in every operation; traversal still
succeeds and visits such vertices; the three operations behave as described
on the malformed graph `{A:[B]}`. -/
theorem malformed_graph_safe :
    (∀ (V : Type) [DecidableEq V] (G : Graph V) (v : V), v ∉ keys G → adj G v = []) ∧
    (∀ (V : Type) [DecidableEq V] (G : Graph V) (s : V), s ∈ keys G →
      ∃ r, breadth_first_search G s = Except.ok r ∧ ∀ v, v ∈ r ↔ Reachable G s v) ∧
    breadth_first_search badGraph "A" = Except.ok ["A", "B"] ∧
    bfs_connected_components badGraph = [["A", "B"]] ∧
    bfs_shortest_path badGraph "A" "B" = none := by
  refine ⟨?_, ?_, rfl, by decide, by decide⟩
  · intro V _ G v hv
    exact adj_of_not_mem_keys hv
  · intro V _ G s hs
    obtain ⟨h1, -, -, -, -⟩ := bfsOrder_spec G s
    exact ⟨bfsOrder G s, by rw [breadth_first_search, if_pos hs], h1⟩

/-- Witness for C8: the non-key vertex `B` has zero neighbors and traversal
from `A` still succeeds (and reaches it). -/
theorem malformed_graph_safe_witness :
    adj badGraph "B" = [] ∧
    ∃ r, breadth_first_search badGraph "A" = Except.ok r ∧
      ∀ v, v ∈ r ↔ Reachable badGraph "A" v :=
  ⟨malformed_graph_safe.1 String badGraph "B" (by decide),
   malformed_graph_safe.2.1 String badGraph "A" (by decide)⟩

/-- C9: each of the three loops terminates: with the fuel the wrappers use,
the loop always returns a value, for every graph and every choice of
start/target (the fuel-exhaustion branch is dead code). -/
theorem operations_terminate :
    ∀ (V : Type) [DecidableEq V] (G : Graph V) (s t : V),
      (bfsAux G (stdFuel G) [s] [s] []).isSome = true ∧
      (spAux G t (stdFuel G) [(s, [s])] [s]).isSome = true ∧
      (componentsAux G (keys G) []).isSome = true := by
  intro V _ G s t
  exact ⟨bfsAux_total G _ _ _ _ (phi_le_stdFuel G s [s]),
    spAux_total G t _ _ _ (by simpa using phi_le_stdFuel G s [s]),
    componentsAux_total G _ _⟩

end BfsSpec
